import Mathlib

/-!
# Metall object cache (`include/metall/kernel/object_cache.hpp`)

A shallow embedding of `metall::kernel::object_cache`, the sharded front-end
cache of the Metall allocator, together with theorems about `get`, `insert`,
`clear` and the constructor.

Conventions of the embedding:

* `difference_type` (a signed offset) is `Int`, `bin_no_type` is `Nat`.
* The shard table `m_cache_table` is a list of shards; the mutexes only
  serialise calls on a shard, so every operation is a function from the table
  before the call to the table after it.
* The two callbacks act on the state `σ` of the backing allocator, which is
  threaded through every call; every invocation is also logged in the result,
  with the arguments it received. A callback does not call back into the
  cache.
* The thread-local statics of `get_core_no()` are a value passed in and
  returned; the router of `get` and `insert` receives the core number that
  call returned.
* Sequences of operations are steps `apply_op` on the shard table; the
  per-shard lock makes every operation one atomic step.
* A result of `none` stands for a failed `assert` or for undefined behaviour
  of the C++ code (`front`/`pop` on an empty bin, `%` by an empty table size,
  indexing outside the shard table).
-/

namespace metall

/-- Signed relative offset, `_difference_type` in the source. -/
abbrev difference_type := Int

/-- Index of a size class, `bin_no_type` in the source. -/
abbrev bin_no_type := Nat

/-! ## Constants of `object_cache` -/

/-- Source: `k_num_cache_per_core = 4`. -/
abbrev k_num_cache_per_core : Nat := 4

/-- Source: `k_max_total_cache_size_per_bin = 1ULL << 20ULL`. -/
abbrev k_max_total_cache_size_per_bin : Nat := 1 <<< 20

/-- Source: `k_cache_block_size = 8`, the batch unit of refill and flush. -/
abbrev k_cache_block_size : Nat := 8

/-- Source:
`k_max_cache_object_size = k_max_total_cache_size_per_bin / k_cache_block_size / 2`. -/
abbrev k_max_cache_object_size : Nat :=
  k_max_total_cache_size_per_bin / k_cache_block_size / 2

/-! ## Collaborators that are template parameters or other headers -/

/-- Modelled from the spec: the size-class policy `_bin_no_manager`, a template
parameter of `object_cache` whose definition is in another header. The spec
lists its two operations, `bin_of(size) -> bin_no` and
`object_size_of(bin_no) -> size`; the source calls them `to_bin_no` and
`to_object_size`. -/
structure bin_no_manager where
  to_bin_no : Nat → bin_no_type
  to_object_size : bin_no_type → Nat

/-- Source: `k_max_bin_no = _bin_no_manager::to_bin_no(k_max_cache_object_size)`,
returned by `max_bin_no()`. -/
def max_bin_no (M : bin_no_manager) : bin_no_type :=
  M.to_bin_no k_max_cache_object_size

/-- Modelled from the spec: `bin_directory` (header `bin_directory.hpp`), the
per-shard store of one ordered queue of offsets per bin. The spec fixes the
order: "Queue order is FIFO — insertion order is preserved and retrieval
removes the oldest entry first." The list of a bin holds its offsets oldest
first. Every bin number has a queue: the bound `_k_num_bins` of the array of
bins belongs to the absent header and is not modelled. -/
structure bin_directory where
  m_table : bin_no_type → List difference_type

namespace bin_directory

/-- Modelled from the spec: `is_empty(bin_no)`, called `empty` in the source. -/
def empty (d : bin_directory) (bin_no : bin_no_type) : Bool :=
  (d.m_table bin_no).isEmpty

/-- Modelled from the spec: `size(bin_no)`, the number of queued offsets. -/
def size (d : bin_directory) (bin_no : bin_no_type) : Nat :=
  (d.m_table bin_no).length

/-- Modelled from the spec: `insert(bin_no, offset)` appends at the back. -/
def insert (d : bin_directory) (bin_no : bin_no_type) (value : difference_type) :
    bin_directory :=
  ⟨Function.update d.m_table bin_no (d.m_table bin_no ++ [value])⟩

/-- Modelled from the spec: `front(bin_no)` is the oldest queued offset; on an
empty bin the call is undefined (`none`). -/
def front (d : bin_directory) (bin_no : bin_no_type) : Option difference_type :=
  (d.m_table bin_no).head?

/-- Modelled from the spec: `pop(bin_no)` removes the oldest queued offset; on
an empty bin the call is undefined (`none`). -/
def pop (d : bin_directory) (bin_no : bin_no_type) : Option bin_directory :=
  match d.m_table bin_no with
  | [] => none
  | _ :: rest => some ⟨Function.update d.m_table bin_no rest⟩

/-- Modelled from the spec: `clear()` empties every bin. -/
def clear (_d : bin_directory) : bin_directory :=
  ⟨fun _ => []⟩

/-- A default-constructed `bin_directory`: every bin is empty. -/
def init : bin_directory :=
  ⟨fun _ => []⟩

end bin_directory

/-- Source: `cache_table_type = boost::container::vector<local_object_cache_type>`,
the type of `m_cache_table`. -/
abbrev cache_table_type := List bin_directory

/-- The inputs of the shard router for one call: the compile-time switch
`SUPPORT_GET_CPU_CORE_NO`, the function `mdtl::hash<unsigned int>{}` (header
`hash.hpp`), the value of `std::hash<std::thread::id>{}(get_id())` for the
calling thread and the value `get_core_no()` returns in this call. -/
structure router where
  support_get_cpu_core_no : Bool
  hash : Nat → Nat
  thread_id_hash : Nat
  core_num : Nat

/-- The buffer `difference_type allocated_offsets[k_cache_block_size]` as the
allocation callback leaves it. -/
abbrev offset_block := Fin k_cache_block_size → difference_type

/-- The callback `allocator` of `get`: from `(bin_no, count)` and the state of
the backing allocator to the filled buffer and the new state. -/
abbrev allocator_type (σ : Type) := bin_no_type → Nat → σ → offset_block × σ

/-- The callback `deallocator` of `insert`: receives `(bin_no, count, offsets)`
and changes the state of the backing allocator. -/
abbrev deallocator_type (σ : Type) :=
  bin_no_type → Nat → List difference_type → σ → σ

namespace object_cache

/-- Source: `num_caches()`, the size of `m_cache_table`. -/
def num_caches (T : cache_table_type) : Nat := T.length

/-- The offsets of bin `bin_no` in shard `cache_no`, oldest first: what the
iteration from `begin(cache_no, bin_no)` to `end(cache_no, bin_no)` visits. A
shard outside the table has no offsets. -/
def queue (T : cache_table_type) (cache_no : Nat) (bin_no : bin_no_type) :
    List difference_type :=
  match T[cache_no]? with
  | some d => d.m_table bin_no
  | none => []

/-- Source: `comp_cache_no()`. Both branches end in `% m_cache_table.size()`,
which is undefined for an empty table. `core_num * k_num_cache_per_core` is a
product of two `unsigned int`. -/
def comp_cache_no (r : router) (T : cache_table_type) : Option Nat :=
  if T.length = 0 then none
  else if r.support_get_cpu_core_no then
    let sub_cache_no := r.thread_id_hash % k_num_cache_per_core
    some (r.hash (r.core_num * k_num_cache_per_core % 2 ^ 32 + sub_cache_no) % T.length)
  else
    let hashed_thread_id := r.hash r.thread_id_hash
    some (hashed_thread_id % T.length)

/-- What a call of `get` leaves behind: the returned offset, the shard table,
the state of the backing allocator, and the `(bin_no, count)` arguments of
every invocation of the allocation callback, in order. -/
structure get_result (σ : Type) where
  ret : difference_type
  table : cache_table_type
  backing : σ
  alloc_calls : List (bin_no_type × Nat)

/-- What a call of `insert` leaves behind: the returned flag, the shard table,
the state of the backing allocator, and the `(bin_no, count, offsets)`
arguments of every invocation of the deallocation callback, in order. -/
structure insert_result (σ : Type) where
  ret : Bool
  table : cache_table_type
  backing : σ
  dealloc_calls : List (bin_no_type × Nat × List difference_type)

/-- The refill loop of `get`:
`for (i = 0; i < k_cache_block_size; ++i) insert(bin_no, allocated_offsets[i])`. -/
def refill (d : bin_directory) (bin_no : bin_no_type) (allocated_offsets : offset_block) :
    bin_directory :=
  (List.finRange k_cache_block_size).foldl
    (fun acc i => acc.insert bin_no (allocated_offsets i)) d

/-- Source: `object_cache::get`. The `lock_guard` on `m_mutex[cache_no]` makes
the body atomic on the shard and has no other effect. -/
def get {σ : Type} (M : bin_no_manager) (r : router) (bin_no : bin_no_type)
    (allocator : allocator_type σ) (s : σ) (T : cache_table_type) :
    Option (get_result σ) :=
  if bin_no > max_bin_no M then some ⟨-1, T, s, []⟩
  else do
    let cache_no ← comp_cache_no r T
    let d ← T[cache_no]?
    let (d1, s1, calls) :=
      if d.empty bin_no then
        let (allocated_offsets, s1) := allocator bin_no k_cache_block_size s
        (refill d bin_no allocated_offsets, s1, [(bin_no, k_cache_block_size)])
      else (d, s, [])
    let offset ← d1.front bin_no
    let d2 ← d1.pop bin_no
    some ⟨offset, T.set cache_no d2, s1, calls⟩

/-- The flush loop of `insert`, `n` iterations of
`offsets[i] = front(bin_no); pop(bin_no);`, with the buffer filled so far. -/
def flush : Nat → bin_directory → bin_no_type → List difference_type →
    Option (List difference_type × bin_directory)
  | 0, d, _, offsets => some (offsets, d)
  | n + 1, d, bin_no, offsets => do
    let v ← d.front bin_no
    let d1 ← d.pop bin_no
    flush n d1 bin_no (offsets ++ [v])

/-- Source: `object_cache::insert`. The two `assert`s of the body fail with
`none`. The product `size(bin_no) * object_size` is one of two `std::size_t`;
a queue that fits in memory keeps it far below `2 ^ 64`, so it is taken in
`Nat`. -/
def insert {σ : Type} (M : bin_no_manager) (r : router) (bin_no : bin_no_type)
    (object_offset : difference_type) (deallocator : deallocator_type σ) (s : σ)
    (T : cache_table_type) : Option (insert_result σ) :=
  if ¬ (object_offset ≥ 0) then none
  else if bin_no > max_bin_no M then some ⟨false, T, s, []⟩
  else do
    let cache_no ← comp_cache_no r T
    let d ← T[cache_no]?
    let d1 := d.insert bin_no object_offset
    let object_size := M.to_object_size bin_no
    if d1.size bin_no * object_size ≥ k_max_total_cache_size_per_bin then
      if ¬ (d1.size bin_no ≥ k_cache_block_size) then none
      else do
        let (offsets, d2) ← flush k_cache_block_size d1 bin_no []
        some ⟨true, T.set cache_no d2, deallocator bin_no k_cache_block_size offsets s,
          [(bin_no, k_cache_block_size, offsets)]⟩
    else some ⟨true, T.set cache_no d1, s, []⟩

/-- What a call of `clear` leaves behind, in the format of `insert_result`. -/
structure clear_result (σ : Type) where
  table : cache_table_type
  backing : σ
  dealloc_calls : List (bin_no_type × Nat × List difference_type)

/-- Source: `object_cache::clear`, `for (auto &table : m_cache_table) table.clear();`.
The method takes no callback and its body calls none. -/
def clear {σ : Type} (s : σ) (T : cache_table_type) : clear_result σ :=
  ⟨T.map bin_directory.clear, s, []⟩

/-- Consecutive calls of `get` on one bin, one router value per call, with no
other operation in between; the results of the calls, in order. -/
def get_seq {σ : Type} (M : bin_no_manager) (bin_no : bin_no_type)
    (allocator : allocator_type σ) :
    List router → σ → cache_table_type → Option (List (get_result σ))
  | [], _, _ => some []
  | r :: rs, s, T => do
    let res ← get M r bin_no allocator s T
    let rest ← get_seq M bin_no allocator rs res.backing res.table
    some (res :: rest)

/-- Consecutive calls of `insert` on one bin, one router value and one offset
per call, with no other operation in between; the results, in order. -/
def insert_seq {σ : Type} (M : bin_no_manager) (bin_no : bin_no_type)
    (deallocator : deallocator_type σ) :
    List (router × difference_type) → σ → cache_table_type →
      Option (List (insert_result σ))
  | [], _, _ => some []
  | (r, offset) :: rest, s, T => do
    let res ← insert M r bin_no offset deallocator s T
    let out ← insert_seq M bin_no deallocator rest res.backing res.table
    some (res :: out)

/-- Source: `k_cpu_core_no_cache_duration = 4`. -/
abbrev k_cpu_core_no_cache_duration : Int := 4

/-- The two `thread_local static int` variables of `get_core_no()`. -/
structure core_no_cache where
  cached_core_no : Int
  cached_count : Int

/-- The value of the statics of `get_core_no()` before the first call of a
thread: both are initialised with 0. -/
def core_no_cache.init : core_no_cache := ⟨0, 0⟩

/-- What a call of `get_core_no()` leaves behind: the returned core number, the
statics of the thread, and whether `mdtl::get_cpu_core_no()` was invoked. -/
structure core_no_result where
  ret : Nat
  statics : core_no_cache
  detected : Bool

/-- Source: `get_core_no()`. `cpu_core_no` is the value
`mdtl::get_cpu_core_no()` (header `proc.hpp`) reports at the time of the call.
The `int` in `cached_core_no` is returned as `unsigned int`. -/
def get_core_no (tl : core_no_cache) (cpu_core_no : Int) : core_no_result :=
  let detected := decide (tl.cached_core_no = 0)
  let cached_core_no := if tl.cached_core_no = 0 then cpu_core_no else tl.cached_core_no
  let cached_count := Int.tmod (tl.cached_count + 1) k_cpu_core_no_cache_duration
  ⟨(cached_core_no % 2 ^ 32).toNat, ⟨cached_core_no, cached_count⟩, detected⟩

/-- Consecutive calls of `get_core_no()` by one thread; the list holds, for
every call, the core id the detection primitive reports at that time. The
result lists `(returned core number, primitive invoked)` per call. -/
def get_core_no_seq : core_no_cache → List Int → List (Nat × Bool)
  | _, [] => []
  | tl, cpu_core_no :: rest =>
    let res := get_core_no tl cpu_core_no
    (res.ret, res.detected) :: get_core_no_seq res.statics rest

/-- Source: `num_cores()`, which returns `std::thread::hardware_concurrency()`;
the argument is the value that query reports. -/
def num_cores (hardware_concurrency : Nat) : Nat := hardware_concurrency

/-- Source: the constructor, `m_cache_table(num_cores() * k_num_cache_per_core)`,
a product of two `unsigned int`; every shard starts with empty bins. -/
def construct (hardware_concurrency : Nat) : cache_table_type :=
  List.replicate (num_cores hardware_concurrency * k_num_cache_per_core % 2 ^ 32)
    bin_directory.init

end object_cache

/-! ## Callers of the cache -/

/-- One operation on the cache. A `get` carries the router value of the call
and the contents its allocation callback leaves in the buffer if the call
invokes it; an `insert` carries the router value and the offset. -/
inductive cache_op where
  | get (r : router) (bin_no : bin_no_type) (allocated_offsets : offset_block)
  | insert (r : router) (bin_no : bin_no_type) (object_offset : difference_type)
  | clear

/-- The shard table together with the offsets callers hold: those a `get` on a
cached bin returned and no `insert` has taken back since. -/
structure client_state where
  table : cache_table_type
  held : List difference_type

/-- One operation, as a step on `client_state`: the call of `get`, `insert` or
`clear` on the table, and the bookkeeping of the held offsets. The second
component is the offset a `get` returned. An operation that is undefined in
the source is no step (`none`). -/
def apply_op (M : bin_no_manager) (st : client_state) :
    cache_op → Option (client_state × Option difference_type)
  | cache_op.get r bin_no allocated_offsets => do
    let res ← object_cache.get M r bin_no (fun _ _ s => (allocated_offsets, s)) () st.table
    some (⟨res.table, if bin_no > max_bin_no M then st.held else res.ret :: st.held⟩,
      some res.ret)
  | cache_op.insert r bin_no object_offset => do
    let res ← object_cache.insert M r bin_no object_offset (fun _ _ _ s => s) () st.table
    some (⟨res.table, if res.ret then st.held.erase object_offset else st.held⟩, none)
  | cache_op.clear => some (⟨(object_cache.clear () st.table).table, st.held⟩, none)

/-- The states reachable from an empty cache, with no offset held, by
operations that each satisfy `admissible` in the state they act on. -/
inductive reachable (M : bin_no_manager) (admissible : client_state → cache_op → Prop) :
    client_state → Prop where
  | init (T : cache_table_type) (hempty : ∀ c b, object_cache.queue T c b = []) :
    reachable M admissible ⟨T, []⟩
  | step (st : client_state) (op : cache_op) (st1 : client_state)
    (ret : Option difference_type) (hst : reachable M admissible st)
    (hop : admissible st op) (hstep : apply_op M st op = some (st1, ret)) :
    reachable M admissible st1

/-- The buffer of an allocation callback holds pairwise distinct offsets, none
of them cached in any shard or held by a caller. -/
def fresh_block (st : client_state) (allocated_offsets : offset_block) : Prop :=
  (List.ofFn allocated_offsets).Nodup ∧
  ∀ o ∈ List.ofFn allocated_offsets,
    o ∉ st.held ∧ ∀ c b, o ∉ object_cache.queue st.table c b

/-- The operations of well-behaved collaborators: a `get` that invokes the
allocation callback receives a fresh buffer, and `insert` is called with an
offset the caller holds. -/
def honest_op (M : bin_no_manager) (st : client_state) : cache_op → Prop
  | cache_op.get r bin_no allocated_offsets =>
    ∀ res, object_cache.get M r bin_no (fun _ _ s => (allocated_offsets, s)) () st.table
        = some res →
      res.alloc_calls ≠ [] → fresh_block st allocated_offsets
  | cache_op.insert _ _ object_offset => object_offset ∈ st.held
  | cache_op.clear => True

/-- No offset is at two places: the held offsets are pairwise distinct, every
queue is free of repetitions, no queued offset is held, and no offset is in
two queues. -/
def no_duplicate (st : client_state) : Prop :=
  st.held.Nodup ∧
  (∀ c b, (object_cache.queue st.table c b).Nodup) ∧
  (∀ c b, ∀ o ∈ object_cache.queue st.table c b, o ∉ st.held) ∧
  (∀ c b c1 b1, (c1 ≠ c ∨ b1 ≠ b) → ∀ o ∈ object_cache.queue st.table c b,
    o ∉ object_cache.queue st.table c1 b1)

/-- The operations that carry no negative offset: a `get` that invokes the
allocation callback receives non-negative offsets only, and the offset passed
to `insert` is non-negative. -/
def non_negative_op (M : bin_no_manager) (st : client_state) : cache_op → Prop
  | cache_op.get r bin_no allocated_offsets =>
    ∀ res, object_cache.get M r bin_no (fun _ _ s => (allocated_offsets, s)) () st.table
        = some res →
      res.alloc_calls ≠ [] → ∀ i, 0 ≤ allocated_offsets i
  | cache_op.insert _ _ object_offset => 0 ≤ object_offset
  | cache_op.clear => True

/-- No constraint on the operation. -/
def any_op (_st : client_state) (_op : cache_op) : Prop := True

/-- The least number of queued objects of `object_size` bytes whose byte
footprint reaches `k_max_total_cache_size_per_bin`:
`ceil(k_max_total_cache_size_per_bin / object_size)`. -/
def threshold_count (object_size : Nat) : Nat :=
  (k_max_total_cache_size_per_bin + object_size - 1) / object_size

/-! ## Concrete collaborators used to evaluate the code -/

/-- A size-class policy with sizes `8, 16, 32, 64, ...`: bin 3 holds objects of
64 bytes, and the bin of `65536` is 13. -/
def pow2_manager : bin_no_manager where
  to_bin_no := fun size => (List.range 32).countP (fun b => 8 * 2 ^ b < size)
  to_object_size := fun bin_no => 8 * 2 ^ bin_no

/-- A router of the fallback strategy whose thread hashes to `h`. -/
def thread_router (h : Nat) : router := ⟨false, id, h, 0⟩

/-- A stub allocation callback handing out `base, base + 8, ..., base + 56`; the
state of the backing allocator counts the invocations. -/
def stub_allocator (base : Int) : allocator_type Nat :=
  fun _ _ n => (fun i => base + 8 * (i.val : Int), n + 1)

/-- The buffer `base, base + 8, ..., base + 56`. -/
def stub_block (base : Int) : offset_block :=
  fun i => base + 8 * (i.val : Int)

/-- A stub deallocation callback that records the released offsets. -/
def stub_deallocator : deallocator_type (List difference_type) :=
  fun _ _ offsets released => released ++ offsets

/-- A shard table of two shards; bin 3 of shard 1 holds `108, ..., 156`. -/
def sample_table : cache_table_type :=
  [bin_directory.init,
   ⟨fun b => if b = 3 then [108, 116, 124, 132, 140, 148, 156] else []⟩]

/-- A shard table of two shards; bin 13 (objects of 65536 bytes) of shard 1
holds 15 offsets, `0, 65536, ..., 14 * 65536`, one short of the threshold. -/
def full_table : cache_table_type :=
  [bin_directory.init,
   ⟨fun b => if b = 13 then (List.range 15).map (fun (i : Nat) => 65536 * (i : Int)) else []⟩]

/-- The calls of 16385 consecutive inserts of the offsets `0, 64, 128, ...`, all
from one thread. -/
def many_inserts : List (router × difference_type) :=
  (List.range 16385).map (fun (i : Nat) => (thread_router 5, 64 * (i : Int)))

/-- The empty cache of a machine with one hardware thread after `get(3)` by a
thread routed to shard 1, with the buffer `100, 108, ..., 156`: bin 3 of shard 1
holds `108, ..., 156` and the caller holds `100`. -/
def after_first_get : client_state :=
  ⟨(object_cache.construct 1).set 1
    ⟨Function.update bin_directory.init.m_table 3 [108, 116, 124, 132, 140, 148, 156]⟩,
    [100]⟩

open object_cache

/-! ## Lemmas on the per-bin queues -/

theorem comp_cache_no_lt {r : router} {T : cache_table_type} {c : Nat}
    (hc : comp_cache_no r T = some c) : c < T.length := by
  unfold comp_cache_no at hc
  split at hc
  · simp at hc
  · have hpos : 0 < T.length := by omega
    split at hc <;> simp only [Option.some.injEq] at hc <;> subst hc <;>
      exact Nat.mod_lt _ hpos

theorem comp_cache_no_set {r : router} {T : cache_table_type} (c : Nat)
    (d : bin_directory) : comp_cache_no r (T.set c d) = comp_cache_no r T := by
  simp only [comp_cache_no, List.length_set]

theorem queue_of_getElem {T : cache_table_type} {c : Nat} {d : bin_directory}
    (hd : T[c]? = some d) (b : bin_no_type) : queue T c b = d.m_table b := by
  simp [queue, hd]

theorem queue_set_self {T : cache_table_type} {c : Nat} (hlt : c < T.length)
    (d : bin_directory) (b : bin_no_type) : queue (T.set c d) c b = d.m_table b := by
  simp [queue, List.getElem?_set_self hlt]

theorem insert_m_table_self (d : bin_directory) (b : bin_no_type) (v : difference_type) :
    (d.insert b v).m_table b = d.m_table b ++ [v] := by
  simp [bin_directory.insert]

theorem foldl_insert_eq (d : bin_directory) (b : bin_no_type) (buf : offset_block)
    (l : List (Fin k_cache_block_size)) :
    l.foldl (fun acc i => acc.insert b (buf i)) d
      = ⟨Function.update d.m_table b (d.m_table b ++ l.map buf)⟩ := by
  induction l generalizing d with
  | nil => simp
  | cons i l ih =>
    rw [List.foldl_cons, ih]
    simp [bin_directory.insert, List.append_assoc]

theorem refill_eq (d : bin_directory) (b : bin_no_type) (buf : offset_block) :
    refill d b buf = ⟨Function.update d.m_table b (d.m_table b ++ List.ofFn buf)⟩ := by
  rw [refill, foldl_insert_eq, List.ofFn_eq_map]

theorem flush_eq (n : Nat) (d : bin_directory) (b : bin_no_type)
    (acc : List difference_type) (hn : n ≤ (d.m_table b).length) :
    flush n d b acc
      = some (acc ++ (d.m_table b).take n,
          ⟨Function.update d.m_table b ((d.m_table b).drop n)⟩) := by
  induction n generalizing d acc with
  | zero => simp [flush]
  | succ n ih =>
    cases hq : d.m_table b with
    | nil => simp [hq] at hn
    | cons v rest =>
      have hn1 : n ≤ rest.length := by simpa [hq] using hn
      simp only [flush, bin_directory.front, bin_directory.pop, hq, List.head?_cons,
        Option.bind_eq_bind, Option.some_bind]
      rw [ih]
      · simp [List.append_assoc]
      · simpa using hn1

/-! ## What one in-range call does to the selected shard -/

theorem get_of_empty {σ : Type} (M : bin_no_manager) (r : router) (bin_no : Nat)
    (allocator : allocator_type σ) (s : σ) (T : cache_table_type) (c : Nat)
    (d : bin_directory) (hbin : bin_no ≤ max_bin_no M) (hc : comp_cache_no r T = some c)
    (hd : T[c]? = some d) (hq : d.m_table bin_no = []) :
    get M r bin_no allocator s T
      = some ⟨(allocator bin_no k_cache_block_size s).1 0,
          T.set c ⟨Function.update d.m_table bin_no
            (List.ofFn (allocator bin_no k_cache_block_size s).1).tail⟩,
          (allocator bin_no k_cache_block_size s).2,
          [(bin_no, k_cache_block_size)]⟩ := by
  have hnot : ¬ bin_no > max_bin_no M := by omega
  simp only [object_cache.get, if_neg hnot, hc, hd, Option.bind_eq_bind, Option.some_bind,
    bin_directory.empty, hq, List.isEmpty_nil, if_true, refill_eq, List.nil_append,
    bin_directory.front, bin_directory.pop, Function.update_same]
  rw [List.ofFn_succ]
  simp

theorem get_of_cons {σ : Type} (M : bin_no_manager) (r : router) (bin_no : Nat)
    (allocator : allocator_type σ) (s : σ) (T : cache_table_type) (c : Nat)
    (d : bin_directory) (v : difference_type) (rest : List difference_type)
    (hbin : bin_no ≤ max_bin_no M) (hc : comp_cache_no r T = some c)
    (hd : T[c]? = some d) (hq : d.m_table bin_no = v :: rest) :
    get M r bin_no allocator s T
      = some ⟨v, T.set c ⟨Function.update d.m_table bin_no rest⟩, s, []⟩ := by
  have hnot : ¬ bin_no > max_bin_no M := by omega
  simp [object_cache.get, if_neg hnot, hc, hd, bin_directory.empty, hq, bin_directory.front,
    bin_directory.pop]

theorem insert_of_small {σ : Type} (M : bin_no_manager) (r : router) (bin_no : Nat)
    (offset : Int) (deallocator : deallocator_type σ) (s : σ)
    (T : cache_table_type) (c : Nat) (d : bin_directory)
    (hoff : 0 ≤ offset) (hbin : bin_no ≤ max_bin_no M)
    (hc : comp_cache_no r T = some c) (hd : T[c]? = some d)
    (hsmall : ((d.m_table bin_no).length + 1) * M.to_object_size bin_no
      < k_max_total_cache_size_per_bin) :
    insert M r bin_no offset deallocator s T
      = some ⟨true, T.set c ⟨Function.update d.m_table bin_no (d.m_table bin_no ++ [offset])⟩,
          s, []⟩ := by
  have hnot : ¬ bin_no > max_bin_no M := by omega
  have hsz : (d.insert bin_no offset).size bin_no = (d.m_table bin_no).length + 1 := by
    simp [bin_directory.size, bin_directory.insert]
  have hlt : ¬ (d.insert bin_no offset).size bin_no * M.to_object_size bin_no
      ≥ k_max_total_cache_size_per_bin := by rw [hsz]; exact Nat.not_le.mpr hsmall
  unfold object_cache.insert
  rw [if_neg (not_not.mpr hoff), if_neg hnot]
  simp only [hc, hd, Option.bind_eq_bind, Option.some_bind]
  rw [if_neg hlt]
  simp [bin_directory.insert]

theorem insert_of_full {σ : Type} (M : bin_no_manager) (r : router) (bin_no : Nat)
    (offset : Int) (deallocator : deallocator_type σ) (s : σ)
    (T : cache_table_type) (c : Nat) (d : bin_directory)
    (hoff : 0 ≤ offset) (hbin : bin_no ≤ max_bin_no M)
    (hc : comp_cache_no r T = some c) (hd : T[c]? = some d)
    (hfull : ((d.m_table bin_no).length + 1) * M.to_object_size bin_no
      ≥ k_max_total_cache_size_per_bin)
    (hlen : k_cache_block_size ≤ (d.m_table bin_no).length + 1) :
    insert M r bin_no offset deallocator s T
      = some ⟨true,
          T.set c ⟨Function.update d.m_table bin_no
            ((d.m_table bin_no ++ [offset]).drop k_cache_block_size)⟩,
          deallocator bin_no k_cache_block_size
            ((d.m_table bin_no ++ [offset]).take k_cache_block_size) s,
          [(bin_no, k_cache_block_size,
            (d.m_table bin_no ++ [offset]).take k_cache_block_size)]⟩ := by
  have hnot : ¬ bin_no > max_bin_no M := by omega
  have hsz : (d.insert bin_no offset).size bin_no = (d.m_table bin_no).length + 1 := by
    simp [bin_directory.size, bin_directory.insert]
  have hge : (d.insert bin_no offset).size bin_no * M.to_object_size bin_no
      ≥ k_max_total_cache_size_per_bin := by rw [hsz]; exact hfull
  have hfl := flush_eq k_cache_block_size (d.insert bin_no offset) bin_no []
    (by rw [insert_m_table_self]; simpa using hlen)
  have hblk : ¬ ¬ (d.insert bin_no offset).size bin_no ≥ k_cache_block_size := by
    rw [hsz]; exact not_not.mpr hlen
  unfold object_cache.insert
  rw [if_neg (not_not.mpr hoff), if_neg hnot]
  simp only [hc, hd, Option.bind_eq_bind, Option.some_bind]
  rw [if_pos hge, if_neg hblk, hfl]
  simp [bin_directory.insert]

theorem selected_shard {r : router} {T : cache_table_type} {c : Nat}
    (hc : comp_cache_no r T = some c) :
    ∃ d, T[c]? = some d ∧ ∀ b, queue T c b = d.m_table b := by
  have hlt := comp_cache_no_lt hc
  exact ⟨T[c], List.getElem?_eq_getElem hlt, fun b => queue_of_getElem (List.getElem?_eq_getElem hlt) b⟩

/-! ## The effect of one call on the whole shard table -/

theorem table_set_frame {T : cache_table_type} {c : Nat} {d : bin_directory}
    (hd : T[c]? = some d) (bin_no : Nat) (newq : List difference_type) :
    num_caches (T.set c ⟨Function.update d.m_table bin_no newq⟩) = num_caches T ∧
    (∀ c1, c1 ≠ c →
      (T.set c ⟨Function.update d.m_table bin_no newq⟩)[c1]? = T[c1]?) ∧
    (∀ b, b ≠ bin_no →
      queue (T.set c ⟨Function.update d.m_table bin_no newq⟩) c b = queue T c b) ∧
    queue (T.set c ⟨Function.update d.m_table bin_no newq⟩) c bin_no = newq := by
  have hlt : c < T.length := by
    rcases Nat.lt_or_ge c T.length with h | h
    · exact h
    · rw [List.getElem?_eq_none h] at hd
      cases hd
  refine ⟨by simp [num_caches], ?_, ?_, ?_⟩
  · intro c1 hc1
    exact List.getElem?_set_ne (Ne.symm hc1)
  · intro b hb
    rw [queue_set_self hlt, queue_of_getElem hd]
    exact Function.update_noteq hb _ _
  · rw [queue_set_self hlt]
    exact Function.update_same _ _ _

theorem get_effect {σ : Type} (M : bin_no_manager) (r : router) (bin_no : Nat)
    (allocator : allocator_type σ) (s : σ) (T : cache_table_type) (g : get_result σ)
    (hg : object_cache.get M r bin_no allocator s T = some g) :
    (bin_no > max_bin_no M ∧ g.ret = -1 ∧ g.table = T ∧ g.alloc_calls = [] ∧
      g.backing = s) ∨
    (bin_no ≤ max_bin_no M ∧ ∃ c, comp_cache_no r T = some c ∧
      num_caches g.table = num_caches T ∧
      (∀ c1, c1 ≠ c → g.table[c1]? = T[c1]?) ∧
      (∀ b, b ≠ bin_no → queue g.table c b = queue T c b) ∧
      ((queue T c bin_no = [] ∧ g.alloc_calls = [(bin_no, 8)] ∧
          g.backing = (allocator bin_no 8 s).2 ∧
          g.ret :: queue g.table c bin_no = List.ofFn (allocator bin_no 8 s).1) ∨
        (g.alloc_calls = [] ∧ g.backing = s ∧
          queue T c bin_no = g.ret :: queue g.table c bin_no))) := by
  by_cases hbin : bin_no > max_bin_no M
  · left
    unfold object_cache.get at hg
    rw [if_pos hbin] at hg
    cases hg
    exact ⟨hbin, rfl, rfl, rfl, rfl⟩
  · right
    have hle : bin_no ≤ max_bin_no M := Nat.le_of_not_lt hbin
    refine ⟨hle, ?_⟩
    cases hcomp : comp_cache_no r T with
    | none =>
      unfold object_cache.get at hg
      rw [if_neg hbin] at hg
      simp [hcomp] at hg
    | some c =>
      obtain ⟨d, hd, hqd⟩ := selected_shard hcomp
      refine ⟨c, rfl, ?_⟩
      cases hq : d.m_table bin_no with
      | nil =>
        rw [get_of_empty M r bin_no allocator s T c d hle hcomp hd hq] at hg
        cases hg
        obtain ⟨h1, h2, h3, h4⟩ := table_set_frame hd bin_no
          (List.ofFn (allocator bin_no k_cache_block_size s).1).tail
        refine ⟨h1, h2, h3, Or.inl ⟨by rw [hqd, hq], rfl, rfl, ?_⟩⟩
        show _ :: queue _ c bin_no = _
        rw [h4, List.ofFn_succ]
        simp
      | cons v rest =>
        rw [get_of_cons M r bin_no allocator s T c d v rest hle hcomp hd hq] at hg
        cases hg
        obtain ⟨h1, h2, h3, h4⟩ := table_set_frame hd bin_no rest
        refine ⟨h1, h2, h3, Or.inr ⟨rfl, rfl, ?_⟩⟩
        show _ = v :: queue _ c bin_no
        rw [h4, hqd, hq]

theorem insert_effect {σ : Type} (M : bin_no_manager) (r : router) (bin_no : Nat)
    (offset : Int) (deallocator : deallocator_type σ) (s : σ) (T : cache_table_type)
    (i : insert_result σ)
    (hi : object_cache.insert M r bin_no offset deallocator s T = some i) :
    0 ≤ offset ∧
    ((bin_no > max_bin_no M ∧ i.ret = false ∧ i.table = T ∧ i.dealloc_calls = [] ∧
      i.backing = s) ∨
    (bin_no ≤ max_bin_no M ∧ i.ret = true ∧ ∃ c, comp_cache_no r T = some c ∧
      num_caches i.table = num_caches T ∧
      (∀ c1, c1 ≠ c → i.table[c1]? = T[c1]?) ∧
      (∀ b, b ≠ bin_no → queue i.table c b = queue T c b) ∧
      ((((queue T c bin_no).length + 1) * M.to_object_size bin_no
            < k_max_total_cache_size_per_bin ∧
          i.dealloc_calls = [] ∧ i.backing = s ∧
          queue i.table c bin_no = queue T c bin_no ++ [offset]) ∨
        (((queue T c bin_no).length + 1) * M.to_object_size bin_no
            ≥ k_max_total_cache_size_per_bin ∧
          k_cache_block_size ≤ (queue T c bin_no).length + 1 ∧
          i.dealloc_calls = [(bin_no, 8, (queue T c bin_no ++ [offset]).take 8)] ∧
          i.backing = deallocator bin_no 8 ((queue T c bin_no ++ [offset]).take 8) s ∧
          queue i.table c bin_no = (queue T c bin_no ++ [offset]).drop 8)))) := by
  by_cases hoff : 0 ≤ offset
  swap
  · unfold object_cache.insert at hi
    rw [if_pos hoff] at hi
    cases hi
  refine ⟨hoff, ?_⟩
  by_cases hbin : bin_no > max_bin_no M
  · left
    unfold object_cache.insert at hi
    rw [if_neg (not_not.mpr hoff), if_pos hbin] at hi
    cases hi
    exact ⟨hbin, rfl, rfl, rfl, rfl⟩
  · right
    have hle : bin_no ≤ max_bin_no M := Nat.le_of_not_lt hbin
    cases hcomp : comp_cache_no r T with
    | none =>
      unfold object_cache.insert at hi
      rw [if_neg (not_not.mpr hoff), if_neg hbin] at hi
      simp [hcomp] at hi
    | some c =>
      obtain ⟨d, hd, hqd⟩ := selected_shard hcomp
      have hqb := hqd bin_no
      by_cases hsmall : ((d.m_table bin_no).length + 1) * M.to_object_size bin_no
          < k_max_total_cache_size_per_bin
      · rw [insert_of_small M r bin_no offset deallocator s T c d hoff hle hcomp hd hsmall] at hi
        cases hi
        obtain ⟨h1, h2, h3, h4⟩ := table_set_frame hd bin_no (d.m_table bin_no ++ [offset])
        refine ⟨hle, rfl, c, rfl, h1, h2, h3, Or.inl ⟨?_, rfl, rfl, ?_⟩⟩
        · rw [hqb]; exact hsmall
        · rw [hqb]; exact h4
      · have hfull := Nat.not_lt.mp hsmall
        by_cases hlen : k_cache_block_size ≤ (d.m_table bin_no).length + 1
        · rw [insert_of_full M r bin_no offset deallocator s T c d hoff hle hcomp hd hfull
            hlen] at hi
          cases hi
          obtain ⟨h1, h2, h3, h4⟩ := table_set_frame hd bin_no
            ((d.m_table bin_no ++ [offset]).drop k_cache_block_size)
          refine ⟨hle, rfl, c, rfl, h1, h2, h3, Or.inr ⟨?_, ?_, ?_, ?_, ?_⟩⟩
          · rw [hqb]; exact hfull
          · rw [hqb]; exact hlen
          · rw [hqb]
          · rw [hqb]
          · rw [hqb]; exact h4
        · exfalso
          have hsz : (d.insert bin_no offset).size bin_no = (d.m_table bin_no).length + 1 := by
            simp [bin_directory.size, bin_directory.insert]
          have hge : (d.insert bin_no offset).size bin_no * M.to_object_size bin_no
              ≥ k_max_total_cache_size_per_bin := by rw [hsz]; exact hfull
          have hblk : ¬ (d.insert bin_no offset).size bin_no ≥ k_cache_block_size := by
            rw [hsz]; exact hlen
          unfold object_cache.insert at hi
          rw [if_neg (not_not.mpr hoff), if_neg hbin] at hi
          simp only [hcomp, hd, Option.bind_eq_bind, Option.some_bind] at hi
          rw [if_pos hge, if_pos hblk] at hi
          cases hi

/-! ## Rejection of bins that are not cached -/

/-- C1: for a bin above `max_bin_no()`, whatever the shard table, the callbacks
and the non-negative offset, `get` returns `-1` and `insert` returns `false`;
neither callback is invoked (the logs are empty and the backing allocator keeps
its state) and the shard table after the call is the table before it, so
every queue of every shard is unchanged. -/
theorem out_of_range_bin_is_rejected {σ τ : Type} (M : bin_no_manager) (r : router)
    (bin_no : Nat) (offset : Int) (allocator : allocator_type σ)
    (deallocator : deallocator_type τ) (s : σ) (t : τ) (T : cache_table_type)
    (hbin : bin_no > max_bin_no M) (hoff : 0 ≤ offset) :
    (∃ g, object_cache.get M r bin_no allocator s T = some g ∧ g.ret = -1 ∧
      g.alloc_calls = [] ∧ g.backing = s ∧ g.table = T ∧
      ∀ c b, queue g.table c b = queue T c b) ∧
    (∃ i, object_cache.insert M r bin_no offset deallocator t T = some i ∧ i.ret = false ∧
      i.dealloc_calls = [] ∧ i.backing = t ∧ i.table = T ∧
      ∀ c b, queue i.table c b = queue T c b) := by
  constructor
  · refine ⟨⟨-1, T, s, []⟩, ?_, rfl, rfl, rfl, rfl, fun _ _ => rfl⟩
    unfold object_cache.get
    rw [if_pos hbin]
  · refine ⟨⟨false, T, t, []⟩, ?_, rfl, rfl, rfl, rfl, fun _ _ => rfl⟩
    unfold object_cache.insert
    rw [if_neg (not_not.mpr hoff), if_pos hbin]

/-- C1 at bin 14 of the policy with sizes `8 * 2 ^ b`, whose `max_bin_no()` is 13. -/
theorem out_of_range_bin_is_rejected_witness :
    14 > max_bin_no pow2_manager ∧ (0 : Int) ≤ 100 ∧
    (∃ g, object_cache.get pow2_manager (thread_router 5) 14 (stub_allocator 100) 0
        sample_table = some g ∧ g.ret = -1 ∧
      g.alloc_calls = [] ∧ g.backing = 0 ∧ g.table = sample_table ∧
      ∀ c b, queue g.table c b = queue sample_table c b) ∧
    (∃ i, object_cache.insert pow2_manager (thread_router 5) 14 100 stub_deallocator []
        sample_table = some i ∧ i.ret = false ∧
      i.dealloc_calls = [] ∧ i.backing = [] ∧ i.table = sample_table ∧
      ∀ c b, queue i.table c b = queue sample_table c b) :=
  ⟨by decide, by decide,
    out_of_range_bin_is_rejected pow2_manager (thread_router 5) 14 100 (stub_allocator 100)
      stub_deallocator 0 [] sample_table (by decide) (by decide)⟩

/-! ## `get` on one bin of the selected shard -/

/-- C2: for a cached bin whose queue in the selected shard is empty, `get`
invokes the allocation callback exactly once, with `(bin_no, 8)`, returns the
first of the 8 offsets of the buffer and leaves in the queue the other 7, in
the order of the buffer. -/
theorem get_refills_empty_queue {σ : Type} (M : bin_no_manager) (r : router)
    (bin_no : Nat) (allocator : allocator_type σ) (s : σ) (T : cache_table_type)
    (c : Nat) (hbin : bin_no ≤ max_bin_no M) (hc : comp_cache_no r T = some c)
    (hq : queue T c bin_no = []) :
    ∃ res, object_cache.get M r bin_no allocator s T = some res ∧
      res.alloc_calls = [(bin_no, 8)] ∧
      res.backing = (allocator bin_no 8 s).2 ∧
      res.ret = (allocator bin_no 8 s).1 0 ∧
      res.ret :: queue res.table c bin_no = List.ofFn (allocator bin_no 8 s).1 ∧
      (queue res.table c bin_no).length = 7 := by
  obtain ⟨d, hd, hqd⟩ := selected_shard hc
  have hempty : d.m_table bin_no = [] := by rw [← hqd]; exact hq
  refine ⟨_, get_of_empty M r bin_no allocator s T c d hbin hc hd hempty, rfl, rfl, rfl, ?_, ?_⟩
  · simp only [queue_set_self (comp_cache_no_lt hc), Function.update_same]
    rw [List.ofFn_succ]
    simp
  · simp [queue_set_self (comp_cache_no_lt hc)]

/-- C2 on the spec's scenario: the stub writes `100, 108, ..., 156` for bin 3;
`get` returns `100` and the queue of bin 3 holds `108, ..., 156`. -/
theorem get_refills_empty_queue_witness :
    3 ≤ max_bin_no pow2_manager ∧
    comp_cache_no (thread_router 5) (construct 1) = some 1 ∧
    queue (construct 1) 1 3 = [] ∧
    ∃ res, object_cache.get pow2_manager (thread_router 5) 3 (stub_allocator 100) 0
        (construct 1) = some res ∧
      res.alloc_calls = [(3, 8)] ∧ res.ret = 100 ∧
      queue res.table 1 3 = [108, 116, 124, 132, 140, 148, 156] := by
  have h1 : 3 ≤ max_bin_no pow2_manager := by decide
  have h2 : comp_cache_no (thread_router 5) (construct 1) = some 1 := by decide
  have h3 : queue (construct 1) 1 3 = [] := by decide
  obtain ⟨res, hres, hcalls, -, hret, hlist, -⟩ :=
    get_refills_empty_queue pow2_manager (thread_router 5) 3 (stub_allocator 100) 0
      (construct 1) 1 h1 h2 h3
  have hbuf : List.ofFn (stub_allocator 100 3 8 0).1
      = [100, 108, 116, 124, 132, 140, 148, 156] := by decide
  rw [hbuf] at hlist
  have hret2 : res.ret = 100 := by rw [hret]; decide
  refine ⟨h1, h2, h3, res, hres, hcalls, hret2, ?_⟩
  rw [hret2] at hlist
  exact List.tail_eq_of_cons_eq hlist

/-- C3: for a cached bin, `get` on a non-empty queue of the selected shard does
not invoke the allocation callback, returns the oldest queued offset and leaves
the old queue without its head, one offset shorter; on an empty queue the
length after the call is `k_cache_block_size - 1 = 7`. -/
theorem get_pops_oldest {σ : Type} (M : bin_no_manager) (r : router)
    (bin_no : Nat) (allocator : allocator_type σ) (s : σ) (T : cache_table_type)
    (c : Nat) (hbin : bin_no ≤ max_bin_no M) (hc : comp_cache_no r T = some c) :
    ∃ res, object_cache.get M r bin_no allocator s T = some res ∧
      (∀ v rest, queue T c bin_no = v :: rest →
        res.alloc_calls = [] ∧ res.backing = s ∧ res.ret = v ∧
        queue res.table c bin_no = rest ∧
        (queue res.table c bin_no).length + 1 = (queue T c bin_no).length) ∧
      (queue T c bin_no = [] →
        (queue res.table c bin_no).length = k_cache_block_size - 1 ∧
        k_cache_block_size - 1 = 7) := by
  obtain ⟨d, hd, hqd⟩ := selected_shard hc
  have hlt := comp_cache_no_lt hc
  cases hq : d.m_table bin_no with
  | nil =>
    refine ⟨_, get_of_empty M r bin_no allocator s T c d hbin hc hd hq, ?_, ?_⟩
    · intro v rest h
      rw [hqd, hq] at h
      cases h
    · intro _
      simp [queue_set_self hlt]
  | cons v rest =>
    refine ⟨_, get_of_cons M r bin_no allocator s T c d v rest hbin hc hd hq, ?_, ?_⟩
    · intro v1 rest1 h
      rw [hqd, hq] at h
      cases h
      refine ⟨rfl, rfl, rfl, ?_, ?_⟩
      · simp [queue_set_self hlt]
      · simp [queue_set_self hlt, hqd, hq]
    · intro h
      rw [hqd, hq] at h
      cases h

/-- C3 on `sample_table`: `get` on bin 3 of shard 1 returns `108`, the oldest
offset, and leaves `116, ..., 156`. -/
theorem get_pops_oldest_witness :
    3 ≤ max_bin_no pow2_manager ∧
    comp_cache_no (thread_router 5) sample_table = some 1 ∧
    ∃ res, object_cache.get pow2_manager (thread_router 5) 3 (stub_allocator 100) 0
        sample_table = some res ∧
      res.alloc_calls = [] ∧ res.backing = 0 ∧ res.ret = 108 ∧
      queue res.table 1 3 = [116, 124, 132, 140, 148, 156] := by
  have h1 : 3 ≤ max_bin_no pow2_manager := by decide
  have h2 : comp_cache_no (thread_router 5) sample_table = some 1 := by decide
  obtain ⟨res, hres, hne, -⟩ :=
    get_pops_oldest pow2_manager (thread_router 5) 3 (stub_allocator 100) 0
      sample_table 1 h1 h2
  obtain ⟨hcalls, hback, hret, hqueue, -⟩ :=
    hne 108 [116, 124, 132, 140, 148, 156] (by decide)
  exact ⟨h1, h2, res, hres, hcalls, hback, hret, hqueue⟩

/-! ## Refill batching over consecutive `get` calls -/

theorem get_step {σ : Type} (M : bin_no_manager) (r : router) (bin_no : Nat)
    (allocator : allocator_type σ) (s : σ) (T : cache_table_type) (c : Nat)
    (hbin : bin_no ≤ max_bin_no M) (hc : comp_cache_no r T = some c) :
    ∃ g d1, object_cache.get M r bin_no allocator s T = some g ∧
      g.table = T.set c d1 ∧
      ((queue T c bin_no = [] ∧ g.alloc_calls = [(bin_no, 8)] ∧
          (queue g.table c bin_no).length = 7) ∨
        (queue T c bin_no ≠ [] ∧ g.alloc_calls = [] ∧
          (queue g.table c bin_no).length + 1 = (queue T c bin_no).length)) := by
  have hlt := comp_cache_no_lt hc
  obtain ⟨d, hd, hqd⟩ := selected_shard hc
  cases hq : d.m_table bin_no with
  | nil =>
    refine ⟨_, _, get_of_empty M r bin_no allocator s T c d hbin hc hd hq, rfl, Or.inl ?_⟩
    refine ⟨by rw [hqd, hq], rfl, ?_⟩
    simp [queue_set_self hlt]
  | cons v rest =>
    refine ⟨_, _, get_of_cons M r bin_no allocator s T c d v rest hbin hc hd hq, rfl, Or.inr ?_⟩
    refine ⟨by rw [hqd, hq]; exact List.cons_ne_nil v rest, rfl, ?_⟩
    simp [queue_set_self hlt, hqd, hq]

theorem get_seq_from {σ : Type} (M : bin_no_manager) (bin_no : Nat)
    (allocator : allocator_type σ) (c : Nat) (hbin : bin_no ≤ max_bin_no M) :
    ∀ (rs : List router) (s : σ) (T : cache_table_type),
      (∀ r ∈ rs, comp_cache_no r T = some c) →
      ∃ out, get_seq M bin_no allocator rs s T = some out ∧
        out.length = rs.length ∧
        (∀ k (hk : k < out.length), (out[k]).alloc_calls
          = if (queue T c bin_no).length ≤ k ∧ (k - (queue T c bin_no).length) % 8 = 0
            then [(bin_no, 8)] else []) ∧
        (out.map (fun res => res.alloc_calls.length)).sum
          = (rs.length - (queue T c bin_no).length + 7) / 8 := by
  intro rs
  induction rs with
  | nil =>
    intro s T _
    exact ⟨[], rfl, rfl, fun k hk => absurd hk (Nat.not_lt_zero k), by simp⟩
  | cons r rs ih =>
    intro s T hroute
    have hc : comp_cache_no r T = some c := hroute r (List.mem_cons_self r rs)
    obtain ⟨g, d1, hg, hgt, hcase⟩ := get_step M r bin_no allocator s T c hbin hc
    have hrest : ∀ r1 ∈ rs, comp_cache_no r1 g.table = some c := by
      intro r1 hr1
      rw [hgt, comp_cache_no_set]
      exact hroute r1 (List.mem_cons_of_mem r hr1)
    obtain ⟨out, hout, hlen, hcalls, hsum⟩ := ih g.backing g.table hrest
    refine ⟨g :: out, ?_, ?_, ?_, ?_⟩
    · simp only [get_seq, hg, Option.bind_eq_bind, Option.some_bind, hout]
    · simp [hlen]
    · intro k hk
      rcases hcase with ⟨hq0, hgc, hq1⟩ | ⟨hq0, hgc, hq1⟩
      · rw [hq1] at hcalls
        rw [hq0]
        cases k with
        | zero => simp [hgc]
        | succ k =>
          simp only [List.getElem_cons_succ]
          rw [hcalls]
          exact if_congr (by simp only [List.length_nil]; omega) rfl rfl
      · have hpos : 0 < (queue T c bin_no).length := List.length_pos.mpr hq0
        cases k with
        | zero =>
          simp only [List.getElem_cons_zero, hgc]
          rw [if_neg (by omega)]
        | succ k =>
          simp only [List.getElem_cons_succ]
          rw [hcalls]
          exact if_congr (by omega) rfl rfl
    · simp only [List.map_cons, List.sum_cons, List.length_cons]
      rw [hsum]
      rcases hcase with ⟨hq0, hgc, hq1⟩ | ⟨hq0, hgc, hq1⟩
      · rw [hq1, hq0, hgc]
        simp only [List.length_nil, List.length_singleton]
        omega
      · have hpos : 0 < (queue T c bin_no).length := List.length_pos.mpr hq0
        rw [hgc]
        simp only [List.length_nil]
        omega

/-- C4: starting from an empty queue of a cached bin, `n` consecutive `get`
calls on that bin routed to the same shard all return, and the `k`-th of them
(counted from 1) invokes the allocation callback, once and with `(bin_no, 8)`,
exactly when `k mod 8 = 1`; the calls of the callback number `ceil(n / 8)`. -/
theorem cold_start_refill_batching {σ : Type} (M : bin_no_manager) (bin_no : Nat)
    (allocator : allocator_type σ) (rs : List router) (s : σ) (T : cache_table_type)
    (c : Nat) (hbin : bin_no ≤ max_bin_no M)
    (hroute : ∀ r ∈ rs, comp_cache_no r T = some c)
    (hq : queue T c bin_no = []) :
    ∃ out, get_seq M bin_no allocator rs s T = some out ∧
      out.length = rs.length ∧
      (∀ k (hk : k < out.length), (out[k]).alloc_calls
        = if (k + 1) % 8 = 1 then [(bin_no, 8)] else []) ∧
      (out.map (fun res => res.alloc_calls.length)).sum = (rs.length + 7) / 8 := by
  obtain ⟨out, hout, hlen, hcalls, hsum⟩ :=
    get_seq_from M bin_no allocator c hbin rs s T hroute
  rw [hq] at hcalls hsum
  refine ⟨out, hout, hlen, ?_, ?_⟩
  · intro k hk
    rw [hcalls k hk]
    exact if_congr (by simp only [List.length_nil]; omega) rfl rfl
  · rw [hsum]
    simp

/-- C4 on the empty cache: of 9 consecutive `get` calls on bin 3, the first and
the ninth refill, two calls of the callback in total. -/
theorem cold_start_refill_batching_witness :
    3 ≤ max_bin_no pow2_manager ∧
    (∀ r ∈ List.replicate 9 (thread_router 5), comp_cache_no r (construct 1) = some 1) ∧
    queue (construct 1) 1 3 = [] ∧
    ∃ out, get_seq pow2_manager 3 (stub_allocator 100) (List.replicate 9 (thread_router 5))
        0 (construct 1) = some out ∧
      out.map (fun res => res.alloc_calls)
        = [[(3, 8)], [], [], [], [], [], [], [], [(3, 8)]] ∧
      (out.map (fun res => res.alloc_calls.length)).sum = 2 := by
  have h1 : 3 ≤ max_bin_no pow2_manager := by decide
  have h2 : ∀ r ∈ List.replicate 9 (thread_router 5),
      comp_cache_no r (construct 1) = some 1 := by
    intro r hr
    rw [List.eq_of_mem_replicate hr]
    decide
  have h3 : queue (construct 1) 1 3 = [] := by decide
  obtain ⟨out, hout, hlen, hcalls, hsum⟩ :=
    cold_start_refill_batching pow2_manager 3 (stub_allocator 100)
      (List.replicate 9 (thread_router 5)) 0 (construct 1) 1 h1 h2 h3
  refine ⟨h1, h2, h3, out, hout, ?_, ?_⟩
  · apply List.ext_getElem
    · simp [hlen]
    · intro k hk1 hk2
      have hk : k < out.length := by simpa using hk1
      have hk9 : k < 9 := by simpa [hlen] using hk
      rw [List.getElem_map, hcalls k hk]
      interval_cases k <;> rfl
  · rw [hsum]
    rfl

/-! ## `insert` on one bin of the selected shard -/

/-- C5: for a cached bin, a non-negative offset and a queue `q` of the selected
shard with `(|q| + 1) * object_size(bin_no)` below 1 MiB, `insert` returns
`true`, does not invoke the deallocation callback and leaves the queue equal
to `q` with the offset appended at the back. -/
theorem insert_appends_below_threshold {σ : Type} (M : bin_no_manager) (r : router)
    (bin_no : Nat) (offset : Int) (deallocator : deallocator_type σ) (s : σ)
    (T : cache_table_type) (c : Nat)
    (hbin : bin_no ≤ max_bin_no M) (hoff : 0 ≤ offset)
    (hc : comp_cache_no r T = some c)
    (hsmall : ((queue T c bin_no).length + 1) * M.to_object_size bin_no < 2 ^ 20) :
    ∃ res, object_cache.insert M r bin_no offset deallocator s T = some res ∧
      res.ret = true ∧ res.dealloc_calls = [] ∧ res.backing = s ∧
      queue res.table c bin_no = queue T c bin_no ++ [offset] := by
  obtain ⟨d, hd, hqd⟩ := selected_shard hc
  rw [hqd] at hsmall
  refine ⟨_, insert_of_small M r bin_no offset deallocator s T c d hoff hbin hc hd hsmall,
    rfl, rfl, rfl, ?_⟩
  simp [queue_set_self (comp_cache_no_lt hc), hqd]

/-- C5 on the spec's scenario: bin 3 has objects of 64 bytes and its queue holds
`108, ..., 156`; `insert(3, 100)` gives 8 entries, 512 bytes, without a flush. -/
theorem insert_appends_below_threshold_witness :
    3 ≤ max_bin_no pow2_manager ∧ (0 : Int) ≤ 100 ∧
    comp_cache_no (thread_router 5) sample_table = some 1 ∧
    pow2_manager.to_object_size 3 = 64 ∧
    ((queue sample_table 1 3).length + 1) * pow2_manager.to_object_size 3 = 512 ∧
    ∃ res, object_cache.insert pow2_manager (thread_router 5) 3 100 stub_deallocator []
        sample_table = some res ∧
      res.ret = true ∧ res.dealloc_calls = [] ∧ res.backing = [] ∧
      queue res.table 1 3 = [108, 116, 124, 132, 140, 148, 156, 100] :=
  ⟨by decide, by decide, by decide, by decide, by decide,
    insert_appends_below_threshold pow2_manager (thread_router 5) 3 100 stub_deallocator []
      sample_table 1 (by decide) (by decide) (by decide) (by decide)⟩

theorem block_fits_of_full {len os : Nat} (hos : os ≤ k_max_cache_object_size)
    (hfull : (len + 1) * os ≥ k_max_total_cache_size_per_bin) :
    2 * k_cache_block_size ≤ len + 1 := by
  by_contra hlt
  have h15 : len + 1 ≤ 15 := by
    have : ¬ 16 ≤ len + 1 := hlt
    omega
  have hmul : (len + 1) * os ≤ 15 * 65536 := Nat.mul_le_mul h15 hos
  have : (1048576 : Nat) ≤ (len + 1) * os := hfull
  omega

/-- C6: for a cached bin (whose object size is at most
`k_max_cache_object_size`, the size from which `max_bin_no()` is computed), a
non-negative offset and a queue `q` of the selected shard with
`(|q| + 1) * object_size(bin_no)` at least 1 MiB, `insert` returns `true`,
invokes the deallocation callback exactly once, with `bin_no`, `8` and the 8
oldest elements of `q ++ [offset]` in insertion order, and leaves the queue
equal to `q ++ [offset]` without those 8 elements. -/
theorem insert_flushes_at_threshold {σ : Type} (M : bin_no_manager) (r : router)
    (bin_no : Nat) (offset : Int) (deallocator : deallocator_type σ) (s : σ)
    (T : cache_table_type) (c : Nat)
    (hbin : bin_no ≤ max_bin_no M) (hoff : 0 ≤ offset)
    (hc : comp_cache_no r T = some c)
    (hos : M.to_object_size bin_no ≤ k_max_cache_object_size)
    (hfull : ((queue T c bin_no).length + 1) * M.to_object_size bin_no ≥ 2 ^ 20) :
    ∃ res, object_cache.insert M r bin_no offset deallocator s T = some res ∧
      res.ret = true ∧
      res.dealloc_calls = [(bin_no, 8, (queue T c bin_no ++ [offset]).take 8)] ∧
      ((queue T c bin_no ++ [offset]).take 8).length = 8 ∧
      res.backing = deallocator bin_no 8 ((queue T c bin_no ++ [offset]).take 8) s ∧
      queue res.table c bin_no = (queue T c bin_no ++ [offset]).drop 8 := by
  obtain ⟨d, hd, hqd⟩ := selected_shard hc
  rw [hqd] at hfull
  have hlen := block_fits_of_full hos hfull
  have hlen8 : k_cache_block_size ≤ (d.m_table bin_no).length + 1 := by
    have : 2 * 8 ≤ (d.m_table bin_no).length + 1 := hlen
    show 8 ≤ _
    omega
  refine ⟨_, insert_of_full M r bin_no offset deallocator s T c d hoff hbin hc hd hfull hlen8,
    rfl, ?_, ?_, ?_, ?_⟩
  · simp [hqd]
  · have : 8 ≤ (d.m_table bin_no).length + 1 := hlen8
    simp [hqd]
    omega
  · simp [hqd]
  · simp [queue_set_self (comp_cache_no_lt hc), hqd]

/-- C6 on `full_table`: the 16th offset of bin 13 brings the queue to
`16 * 65536` bytes, 1 MiB; the 8 oldest offsets are flushed in insertion order
and the 8 youngest stay. -/
theorem insert_flushes_at_threshold_witness :
    13 ≤ max_bin_no pow2_manager ∧ (0 : Int) ≤ 983040 ∧
    comp_cache_no (thread_router 5) full_table = some 1 ∧
    pow2_manager.to_object_size 13 ≤ k_max_cache_object_size ∧
    ((queue full_table 1 13).length + 1) * pow2_manager.to_object_size 13 ≥ 2 ^ 20 ∧
    ∃ res, object_cache.insert pow2_manager (thread_router 5) 13 983040 stub_deallocator []
        full_table = some res ∧
      res.ret = true ∧
      res.dealloc_calls
        = [(13, 8, [0, 65536, 131072, 196608, 262144, 327680, 393216, 458752])] ∧
      res.backing = [0, 65536, 131072, 196608, 262144, 327680, 393216, 458752] ∧
      queue res.table 1 13
        = [524288, 589824, 655360, 720896, 786432, 851968, 917504, 983040] := by
  have h1 : 13 ≤ max_bin_no pow2_manager := by decide
  have h2 : comp_cache_no (thread_router 5) full_table = some 1 := by decide
  have h3 : pow2_manager.to_object_size 13 ≤ k_max_cache_object_size := by decide
  have h4 : ((queue full_table 1 13).length + 1) * pow2_manager.to_object_size 13 ≥ 2 ^ 20 := by
    decide
  obtain ⟨res, hres, hret, hcalls, -, hback, hqueue⟩ :=
    insert_flushes_at_threshold pow2_manager (thread_router 5) 13 983040 stub_deallocator []
      full_table 1 h1 (by decide) h2 h3 h4
  have htake : (queue full_table 1 13 ++ [983040]).take 8
      = [0, 65536, 131072, 196608, 262144, 327680, 393216, 458752] := by decide
  have hdrop : (queue full_table 1 13 ++ [983040]).drop 8
      = [524288, 589824, 655360, 720896, 786432, 851968, 917504, 983040] := by decide
  rw [htake] at hcalls hback
  rw [hdrop] at hqueue
  exact ⟨h1, by decide, h2, h3, h4, res, hres, hret, hcalls, hback, hqueue⟩

/-! ## Flush batching over consecutive `insert` calls -/

theorem threshold_count_le_iff {os : Nat} (hos : 1 ≤ os) (n : Nat) :
    threshold_count os ≤ n ↔ n * os ≥ k_max_total_cache_size_per_bin := by
  unfold threshold_count
  rw [← Nat.lt_succ_iff, Nat.div_lt_iff_lt_mul (by omega), Nat.succ_mul]
  show 1048576 + os - 1 < n * os + os ↔ n * os ≥ 1048576
  omega

theorem threshold_count_ge {os : Nat} (hos : 1 ≤ os) (hmax : os ≤ k_max_cache_object_size) :
    2 * k_cache_block_size ≤ threshold_count os := by
  by_contra hlt
  have h15 : threshold_count os ≤ 15 := by
    have : ¬ 16 ≤ threshold_count os := hlt
    omega
  have hfull := (threshold_count_le_iff hos 15).mp h15
  have hmul : 15 * os ≤ 15 * 65536 := Nat.mul_le_mul_left 15 hmax
  have : (1048576 : Nat) ≤ 15 * os := hfull
  omega

theorem insert_step {σ : Type} (M : bin_no_manager) (r : router) (bin_no : Nat)
    (offset : Int) (deallocator : deallocator_type σ) (s : σ) (T : cache_table_type)
    (c : Nat) (hbin : bin_no ≤ max_bin_no M) (hoff : 0 ≤ offset)
    (hc : comp_cache_no r T = some c)
    (hos : 1 ≤ M.to_object_size bin_no)
    (hmax : M.to_object_size bin_no ≤ k_max_cache_object_size)
    (hlen : (queue T c bin_no).length < threshold_count (M.to_object_size bin_no)) :
    ∃ i d1, object_cache.insert M r bin_no offset deallocator s T = some i ∧
      i.table = T.set c d1 ∧
      (((queue T c bin_no).length + 1 < threshold_count (M.to_object_size bin_no) ∧
          i.dealloc_calls = [] ∧
          queue i.table c bin_no = queue T c bin_no ++ [offset]) ∨
        ((queue T c bin_no).length + 1 = threshold_count (M.to_object_size bin_no) ∧
          i.dealloc_calls = [(bin_no, 8, (queue T c bin_no ++ [offset]).take 8)] ∧
          queue i.table c bin_no = (queue T c bin_no ++ [offset]).drop 8)) := by
  have hlt := comp_cache_no_lt hc
  obtain ⟨d, hd, hqd⟩ := selected_shard hc
  rw [hqd] at hlen ⊢
  by_cases hth : threshold_count (M.to_object_size bin_no) ≤ (d.m_table bin_no).length + 1
  · have hfull := (threshold_count_le_iff hos _).mp hth
    have h16 := threshold_count_ge hos hmax
    have hlen8 : k_cache_block_size ≤ (d.m_table bin_no).length + 1 := by
      have : 2 * 8 ≤ threshold_count (M.to_object_size bin_no) := h16
      show 8 ≤ _
      omega
    refine ⟨_, _, insert_of_full M r bin_no offset deallocator s T c d hoff hbin hc hd hfull
      hlen8, rfl, Or.inr ⟨by omega, rfl, ?_⟩⟩
    simp [queue_set_self hlt]
  · have hsmall : ((d.m_table bin_no).length + 1) * M.to_object_size bin_no
        < k_max_total_cache_size_per_bin := by
      by_contra hge
      exact hth ((threshold_count_le_iff hos _).mpr (Nat.not_lt.mp hge))
    refine ⟨_, _, insert_of_small M r bin_no offset deallocator s T c d hoff hbin hc hd hsmall,
      rfl, Or.inl ⟨by omega, rfl, ?_⟩⟩
    simp [queue_set_self hlt]

theorem insert_seq_from {σ : Type} (M : bin_no_manager) (bin_no : Nat)
    (deallocator : deallocator_type σ) (c : Nat) (hbin : bin_no ≤ max_bin_no M)
    (hos : 1 ≤ M.to_object_size bin_no)
    (hmax : M.to_object_size bin_no ≤ k_max_cache_object_size) :
    ∀ (calls : List (router × Int)) (s : σ) (T : cache_table_type),
      (∀ p ∈ calls, comp_cache_no p.1 T = some c ∧ 0 ≤ p.2) →
      (queue T c bin_no).length < threshold_count (M.to_object_size bin_no) →
      ∃ out, insert_seq M bin_no deallocator calls s T = some out ∧
        out.length = calls.length ∧
        ∀ k (hk : k < out.length), (out[k]).dealloc_calls
          = if threshold_count (M.to_object_size bin_no) ≤ (queue T c bin_no).length + k + 1 ∧
              ((queue T c bin_no).length + k + 1
                - threshold_count (M.to_object_size bin_no)) % 8 = 0
            then [(bin_no, 8,
              ((queue T c bin_no ++ calls.map Prod.snd).drop
                ((queue T c bin_no).length + k + 1
                  - threshold_count (M.to_object_size bin_no))).take 8)]
            else [] := by
  have h16 : 2 * 8 ≤ threshold_count (M.to_object_size bin_no) := threshold_count_ge hos hmax
  intro calls
  induction calls with
  | nil =>
    intro s T _ _
    exact ⟨[], rfl, rfl, fun k hk => absurd hk (Nat.not_lt_zero k)⟩
  | cons p calls ih =>
    intro s T hroute hlen
    obtain ⟨r, offset⟩ := p
    obtain ⟨hc, hoff⟩ := hroute (r, offset) (List.mem_cons_self _ _)
    obtain ⟨i, d1, hi, hit, hcase⟩ :=
      insert_step M r bin_no offset deallocator s T c hbin hoff hc hos hmax hlen
    have hrest : ∀ p ∈ calls, comp_cache_no p.1 i.table = some c ∧ 0 ≤ p.2 := by
      intro p hp
      rw [hit, comp_cache_no_set]
      exact hroute p (List.mem_cons_of_mem _ hp)
    have hlen1 : (queue i.table c bin_no).length
        < threshold_count (M.to_object_size bin_no) := by
      rcases hcase with ⟨hlt, -, hq1⟩ | ⟨heq, -, hq1⟩
      · rw [hq1]; simpa using hlt
      · rw [hq1]; simp only [List.length_drop, List.length_append, List.length_singleton]; omega
    obtain ⟨out, hout, hlenout, hcalls⟩ := ih i.backing i.table hrest hlen1
    refine ⟨i :: out, ?_, ?_, ?_⟩
    · simp only [insert_seq, hi, Option.bind_eq_bind, Option.some_bind, hout]
    · simp [hlenout]
    · intro k hk
      rcases hcase with ⟨hlt, hic, hq1⟩ | ⟨heq, hic, hq1⟩
      · cases k with
        | zero =>
          simp only [List.getElem_cons_zero, hic]
          rw [if_neg (by omega)]
        | succ k =>
          simp only [List.getElem_cons_succ]
          rw [hcalls, hq1]
          simp only [List.length_append, List.length_singleton, List.map_cons,
            List.append_assoc, List.singleton_append]
          have hidx : (queue T c bin_no).length + 1 + k + 1
              = (queue T c bin_no).length + (k + 1) + 1 := by omega
          rw [hidx]
      · cases k with
        | zero =>
          simp only [List.getElem_cons_zero, hic]
          rw [if_pos (by omega)]
          have hz : (queue T c bin_no).length + 0 + 1
              - threshold_count (M.to_object_size bin_no) = 0 := by omega
          rw [hz, List.drop_zero, List.map_cons]
          have happ : queue T c bin_no ++ offset :: List.map Prod.snd calls
              = (queue T c bin_no ++ [offset]) ++ List.map Prod.snd calls := by simp
          have h8 : 8 ≤ (queue T c bin_no ++ [offset]).length := by
            simp only [List.length_append, List.length_singleton]; omega
          rw [happ, List.take_append_of_le_length h8]
        | succ k =>
          simp only [List.getElem_cons_succ]
          rw [hcalls, hq1]
          have hl1 : ((queue T c bin_no ++ [offset]).drop 8).length + 8
              = threshold_count (M.to_object_size bin_no) := by
            simp only [List.length_drop, List.length_append, List.length_singleton]; omega
          by_cases hcond : threshold_count (M.to_object_size bin_no)
                ≤ ((queue T c bin_no ++ [offset]).drop 8).length + k + 1 ∧
              (((queue T c bin_no ++ [offset]).drop 8).length + k + 1
                - threshold_count (M.to_object_size bin_no)) % 8 = 0
          · rw [if_pos hcond, if_pos (by omega)]
            have happ : queue T c bin_no ++ List.map Prod.snd ((r, offset) :: calls)
                = (queue T c bin_no ++ [offset]) ++ List.map Prod.snd calls := by simp
            have h8 : 8 ≤ (queue T c bin_no ++ [offset]).length := by
              simp only [List.length_append, List.length_singleton]; omega
            rw [happ, ← List.drop_append_of_le_length h8, List.drop_drop]
            have hidx : 8 + (((queue T c bin_no ++ [offset]).drop 8).length + k + 1
                  - threshold_count (M.to_object_size bin_no))
                = (queue T c bin_no).length + (k + 1) + 1
                  - threshold_count (M.to_object_size bin_no) := by omega
            rw [hidx]
          · rw [if_neg hcond, if_neg (by omega)]

/-- C7: for a cached bin with object size `s`, `1 ≤ s ≤ 65536`, and threshold
count `T = ceil(2^20 / s)`, consecutive inserts of non-negative offsets on that
bin in one shard, starting from an empty queue, all return; none of the first
`T - 1` invokes the deallocation callback, the `T`-th invokes it exactly once
with the first 8 inserted offsets in insertion order, and from then on the
`k`-th insert invokes it, exactly once and with the 8 oldest offsets not yet
flushed, exactly when `k - T` is a multiple of 8. -/
theorem overflow_flush_batching {σ : Type} (M : bin_no_manager) (bin_no : Nat)
    (deallocator : deallocator_type σ) (calls : List (router × Int)) (s : σ)
    (T : cache_table_type) (c : Nat) (hbin : bin_no ≤ max_bin_no M)
    (hos : 1 ≤ M.to_object_size bin_no) (hmax : M.to_object_size bin_no ≤ 65536)
    (hroute : ∀ p ∈ calls, comp_cache_no p.1 T = some c ∧ 0 ≤ p.2)
    (hq : queue T c bin_no = []) :
    ∃ out, insert_seq M bin_no deallocator calls s T = some out ∧
      out.length = calls.length ∧
      ∀ k (hk : k < out.length),
        (k + 1 < threshold_count (M.to_object_size bin_no) →
          (out[k]).dealloc_calls = []) ∧
        (k + 1 = threshold_count (M.to_object_size bin_no) →
          (out[k]).dealloc_calls = [(bin_no, 8, (calls.map Prod.snd).take 8)]) ∧
        (threshold_count (M.to_object_size bin_no) ≤ k + 1 →
          (out[k]).dealloc_calls
            = if (k + 1 - threshold_count (M.to_object_size bin_no)) % 8 = 0
              then [(bin_no, 8, ((calls.map Prod.snd).drop
                (k + 1 - threshold_count (M.to_object_size bin_no))).take 8)]
              else []) := by
  have h16 : 2 * 8 ≤ threshold_count (M.to_object_size bin_no) := threshold_count_ge hos hmax
  obtain ⟨out, hout, hlen, hcalls⟩ :=
    insert_seq_from M bin_no deallocator c hbin hos hmax calls s T hroute
      (by rw [hq]; simp only [List.length_nil]; omega)
  refine ⟨out, hout, hlen, ?_⟩
  intro k hk
  have hk1 := hcalls k hk
  rw [hq] at hk1
  simp only [List.length_nil, List.nil_append, Nat.zero_add] at hk1
  refine ⟨?_, ?_, ?_⟩
  · intro hlt
    rw [hk1, if_neg (by omega)]
  · intro heq
    rw [hk1, if_pos (by omega)]
    have hz : k + 1 - threshold_count (M.to_object_size bin_no) = 0 := by omega
    rw [hz, List.drop_zero]
  · intro hge
    rw [hk1]
    exact if_congr (by omega) rfl rfl

/-- C7 on bin 3, whose objects have 64 bytes: the threshold count is 16384; of
16385 inserts of `0, 64, 128, ...` the first 16383 do not flush and the
16384-th flushes `0, 64, ..., 448`. -/
theorem overflow_flush_batching_witness :
    3 ≤ max_bin_no pow2_manager ∧
    pow2_manager.to_object_size 3 = 64 ∧
    threshold_count 64 = 16384 ∧
    (∀ p ∈ many_inserts, comp_cache_no p.1 (construct 1) = some 1 ∧ 0 ≤ p.2) ∧
    queue (construct 1) 1 3 = [] ∧
    ∃ out, insert_seq pow2_manager 3 stub_deallocator many_inserts [] (construct 1)
        = some out ∧
      out.length = 16385 ∧
      (∀ k (hk : k < out.length), k + 1 < 16384 → (out[k]).dealloc_calls = []) ∧
      ∀ (hk : 16383 < out.length), (out[16383]).dealloc_calls
        = [(3, 8, [0, 64, 128, 192, 256, 320, 384, 448])] := by
  have h1 : 3 ≤ max_bin_no pow2_manager := by decide
  have hsize : pow2_manager.to_object_size 3 = 64 := by decide
  have hT : threshold_count 64 = 16384 := by decide
  have h2 : ∀ p ∈ many_inserts, comp_cache_no p.1 (construct 1) = some 1 ∧ 0 ≤ p.2 := by
    intro p hp
    simp only [many_inserts, List.mem_map, List.mem_range] at hp
    obtain ⟨i, -, rfl⟩ := hp
    show comp_cache_no (thread_router 5) (construct 1) = some 1 ∧ (0 : Int) ≤ 64 * (i : Int)
    exact ⟨by decide, by omega⟩
  have h3 : queue (construct 1) 1 3 = [] := by decide
  obtain ⟨out, hout, hlen, hcalls⟩ :=
    overflow_flush_batching pow2_manager 3 stub_deallocator many_inserts [] (construct 1) 1
      h1 (by decide) (by decide) h2 h3
  rw [hsize, hT] at hcalls
  have hlen2 : out.length = 16385 := by
    rw [hlen]
    simp only [many_inserts, List.length_map, List.length_range]
  have hrange : (List.range 16385).take 8 = List.range 8 := by
    rw [List.take_range]
    rfl
  have htake : (many_inserts.map Prod.snd).take 8 = [0, 64, 128, 192, 256, 320, 384, 448] := by
    simp only [many_inserts, List.map_map, ← List.map_take, hrange]
    decide
  refine ⟨h1, hsize, hT, h2, h3, out, hout, hlen2, fun k hk hlt => (hcalls k hk).1 hlt, ?_⟩
  intro hk
  rw [(hcalls 16383 hk).2.1 rfl, htake]

/-! ## Round trip of `get` and `insert` -/

/-- C8, amended: for a cached bin, `get` returns an offset `o`; when `o` is
non-negative and the `insert` of `o` that follows on the same shard stays below
the byte threshold, that `insert` returns `true` without a flush, and the
number of offsets cached for the bin in that shard is the number before the
`get` when the queue was non-empty then, and 8 when it was empty (the `get`
refilled it). -/
theorem get_then_insert_count {σ τ : Type} (M : bin_no_manager) (r1 r2 : router)
    (bin_no : Nat) (allocator : allocator_type σ) (deallocator : deallocator_type τ)
    (s : σ) (t : τ) (T : cache_table_type) (c : Nat)
    (hbin : bin_no ≤ max_bin_no M)
    (hc1 : comp_cache_no r1 T = some c) (hc2 : comp_cache_no r2 T = some c) :
    ∃ g, object_cache.get M r1 bin_no allocator s T = some g ∧
      (0 ≤ g.ret →
        ((queue g.table c bin_no).length + 1) * M.to_object_size bin_no < 2 ^ 20 →
        ∃ i, object_cache.insert M r2 bin_no g.ret deallocator t g.table = some i ∧
          i.ret = true ∧ i.dealloc_calls = [] ∧
          (queue T c bin_no ≠ [] →
            (queue i.table c bin_no).length = (queue T c bin_no).length) ∧
          (queue T c bin_no = [] → (queue i.table c bin_no).length = 8)) := by
  obtain ⟨d, hd, hqd⟩ := selected_shard hc1
  have hlt := comp_cache_no_lt hc1
  have key : ∀ (g : get_result σ) (d1 : bin_directory), g.table = T.set c d1 →
      0 ≤ g.ret →
      ((queue g.table c bin_no).length + 1) * M.to_object_size bin_no < 2 ^ 20 →
      ∃ i, object_cache.insert M r2 bin_no g.ret deallocator t g.table = some i ∧
        i.ret = true ∧ i.dealloc_calls = [] ∧
        (queue i.table c bin_no).length = (d1.m_table bin_no).length + 1 := by
    intro g d1 hg hret hsmall
    have hc2g : comp_cache_no r2 g.table = some c := by rw [hg, comp_cache_no_set]; exact hc2
    have hd1 : g.table[c]? = some d1 := by rw [hg]; simp [List.getElem?_set_self hlt]
    rw [queue_of_getElem hd1] at hsmall
    refine ⟨_, insert_of_small M r2 bin_no g.ret deallocator t g.table c d1 hret hbin hc2g hd1
      hsmall, rfl, rfl, ?_⟩
    have hlt2 : c < g.table.length := comp_cache_no_lt hc2g
    simp [queue_set_self hlt2]
  cases hq : d.m_table bin_no with
  | nil =>
    refine ⟨_, get_of_empty M r1 bin_no allocator s T c d hbin hc1 hd hq, ?_⟩
    intro hret hsmall
    obtain ⟨i, hi, hr, hcalls, hlen⟩ := key _ _ rfl hret hsmall
    refine ⟨i, hi, hr, hcalls, ?_, ?_⟩
    · intro hne
      rw [hqd, hq] at hne
      exact absurd rfl hne
    · intro _
      rw [hlen]
      simp
  | cons v rest =>
    refine ⟨_, get_of_cons M r1 bin_no allocator s T c d v rest hbin hc1 hd hq, ?_⟩
    intro hret hsmall
    obtain ⟨i, hi, hr, hcalls, hlen⟩ := key _ _ rfl hret hsmall
    refine ⟨i, hi, hr, hcalls, ?_, ?_⟩
    · intro _
      rw [hlen, hqd, hq]
      simp
    · intro he
      rw [hqd, hq] at he
      cases he

/-- C8 as stated fails on the empty cache: `get(3)` refills and returns `100`,
the `insert(3, 100)` that follows does not flush, and bin 3 of the shard then
holds 8 offsets although it held none before the `get`. -/
theorem round_trip_after_refill_counterexample :
    (queue (construct 1) 1 3).length = 0 ∧
    ((object_cache.get pow2_manager (thread_router 5) 3 (stub_allocator 100) 0
        (construct 1)).bind (fun g =>
      (object_cache.insert pow2_manager (thread_router 5) 3 g.ret stub_deallocator []
        g.table).map (fun i =>
          (g.ret, i.ret, i.dealloc_calls, (queue i.table 1 3).length))))
      = some (100, true, [], 8) :=
  ⟨by decide, by rfl⟩

/-- C8, amended, on `sample_table`: `get(3)` returns `108`, `insert(3, 108)`
restores the 7 cached offsets of bin 3. -/
theorem get_then_insert_count_witness :
    3 ≤ max_bin_no pow2_manager ∧
    comp_cache_no (thread_router 5) sample_table = some 1 ∧
    comp_cache_no (thread_router 7) sample_table = some 1 ∧
    (queue sample_table 1 3).length = 7 ∧
    ∃ g, object_cache.get pow2_manager (thread_router 5) 3 (stub_allocator 100) 0
        sample_table = some g ∧
      ∃ i, object_cache.insert pow2_manager (thread_router 7) 3 g.ret stub_deallocator []
          g.table = some i ∧
        (queue i.table 1 3).length = 7 := by
  have h1 : 3 ≤ max_bin_no pow2_manager := by decide
  have h2 : comp_cache_no (thread_router 5) sample_table = some 1 := by decide
  have h3 : comp_cache_no (thread_router 7) sample_table = some 1 := by decide
  obtain ⟨g, hg, hrest⟩ :=
    get_then_insert_count pow2_manager (thread_router 5) (thread_router 7) 3
      (stub_allocator 100) stub_deallocator 0 [] sample_table 1 h1 h2 h3
  have hgv : (object_cache.get pow2_manager (thread_router 5) 3 (stub_allocator 100) 0
      sample_table).map (fun g => (g.ret, (queue g.table 1 3).length)) = some (108, 6) := by
    decide
  rw [hg] at hgv
  simp only [Option.map_some', Option.some.injEq, Prod.mk.injEq] at hgv
  obtain ⟨i, hi, -, -, hne, -⟩ := hrest (by rw [hgv.1]; decide) (by rw [hgv.2]; decide)
  exact ⟨h1, h2, h3, by decide, g, hg, i, hi, hne (by decide)⟩

/-! ## `clear` -/

/-- C9: for every shard table, `clear()` leaves every bin of every shard empty,
keeps the number of shards and invokes no deallocation callback (empty log,
backing allocator untouched); so for every shard the router selects and every
cached bin, the next `get` invokes the allocation callback exactly once, with
count 8. -/
theorem clear_makes_every_bin_cold {σ τ : Type} (M : bin_no_manager) (t : τ)
    (T : cache_table_type) :
    (∀ d ∈ (object_cache.clear t T).table, ∀ b, d.m_table b = []) ∧
    (∀ c b, queue (object_cache.clear t T).table c b = []) ∧
    num_caches (object_cache.clear t T).table = num_caches T ∧
    (object_cache.clear t T).dealloc_calls = [] ∧
    (object_cache.clear t T).backing = t ∧
    ∀ (r : router) (bin_no : Nat) (allocator : allocator_type σ) (s : σ) (c : Nat),
      bin_no ≤ max_bin_no M →
      comp_cache_no r (object_cache.clear t T).table = some c →
      ∃ res, object_cache.get M r bin_no allocator s (object_cache.clear t T).table
          = some res ∧
        res.alloc_calls = [(bin_no, 8)] := by
  have hbins : ∀ d ∈ (object_cache.clear t T).table, ∀ b, d.m_table b = [] := by
    intro d hd b
    simp only [object_cache.clear, List.mem_map] at hd
    obtain ⟨d0, -, rfl⟩ := hd
    rfl
  have hqueues : ∀ c b, queue (object_cache.clear t T).table c b = [] := by
    intro c b
    unfold queue
    cases hget : (object_cache.clear t T).table[c]? with
    | none => rfl
    | some d => exact hbins d (List.getElem?_mem hget) b
  refine ⟨hbins, hqueues, ?_, rfl, rfl, ?_⟩
  · simp [num_caches, object_cache.clear]
  · intro r bin_no allocator s c hbin hc
    obtain ⟨d, hd, hqd⟩ := selected_shard hc
    have hempty : d.m_table bin_no = [] := by rw [← hqd]; exact hqueues c bin_no
    exact ⟨_, get_of_empty M r bin_no allocator s _ c d hbin hc hd hempty, rfl⟩

/-- C9 on `sample_table`, whose bin 3 of shard 1 holds 7 offsets: after
`clear()` the `get` on that bin refills. -/
theorem clear_makes_every_bin_cold_witness :
    queue sample_table 1 3 ≠ [] ∧
    3 ≤ max_bin_no pow2_manager ∧
    comp_cache_no (thread_router 5) (object_cache.clear () sample_table).table = some 1 ∧
    queue (object_cache.clear () sample_table).table 1 3 = [] ∧
    num_caches (object_cache.clear () sample_table).table = 2 ∧
    ∃ res, object_cache.get pow2_manager (thread_router 5) 3 (stub_allocator 100) 0
        (object_cache.clear () sample_table).table = some res ∧
      res.alloc_calls = [(3, 8)] := by
  have h := @clear_makes_every_bin_cold Nat Unit pow2_manager () sample_table
  have h2 : comp_cache_no (thread_router 5) (object_cache.clear () sample_table).table
      = some 1 := by decide
  exact ⟨by decide, by decide, h2, h.2.1 1 3, by decide,
    h.2.2.2.2.2 (thread_router 5) 3 (stub_allocator 100) 0 1 (by decide) h2⟩

/-! ## The constructor -/

/-- C10, the code at the failing input: when the hardware-parallelism query
reports 0, `num_cores()` is 0, the constructor builds an empty shard table, so
`num_caches()` is 0, and `get` and `insert` on a cached bin then take `%` by
the table size 0, which is undefined. -/
theorem construct_with_zero_parallelism :
    num_cores 0 = 0 ∧
    num_caches (construct 0) = 0 ∧
    comp_cache_no (thread_router 5) (construct 0) = none ∧
    (object_cache.get pow2_manager (thread_router 5) 3 (stub_allocator 100) 0
      (construct 0)).isNone = true ∧
    (object_cache.insert pow2_manager (thread_router 5) 3 100 stub_deallocator []
      (construct 0)).isNone = true ∧
    num_caches (construct 1) = 4 := by
  refine ⟨by decide, by decide, by decide, by rfl, by rfl, by decide⟩

/-! ## No offset is handed out twice -/

theorem queue_frame {T T1 : cache_table_type} {c bin_no : Nat}
    (hshards : ∀ c1, c1 ≠ c → T1[c1]? = T[c1]?)
    (hbins : ∀ b, b ≠ bin_no → queue T1 c b = queue T c b) :
    ∀ c1 b1, (c1 ≠ c ∨ b1 ≠ bin_no) → queue T1 c1 b1 = queue T c1 b1 := by
  intro c1 b1 h
  by_cases hc : c1 = c
  · subst hc
    rcases h with h | h
    · exact absurd rfl h
    · exact hbins b1 h
  · unfold queue
    rw [hshards c1 hc]

theorem queue_clear {τ : Type} (t : τ) (T : cache_table_type) (c b : Nat) :
    queue (object_cache.clear t T).table c b = [] := by
  unfold queue
  cases hget : (object_cache.clear t T).table[c]? with
  | none => rfl
  | some d =>
    have hd := List.getElem?_mem hget
    simp only [object_cache.clear, List.mem_map] at hd
    obtain ⟨d0, -, rfl⟩ := hd
    rfl

theorem no_duplicate_replace {st : client_state} {T1 : cache_table_type}
    {held1 : List difference_type} {c bin_no : Nat} (hinv : no_duplicate st)
    (hframe : ∀ c1 b1, (c1 ≠ c ∨ b1 ≠ bin_no) → queue T1 c1 b1 = queue st.table c1 b1)
    (hheld : held1.Nodup) (hnodup : (queue T1 c bin_no).Nodup)
    (hq_held : ∀ o ∈ queue T1 c bin_no, o ∉ held1)
    (hq_other : ∀ o ∈ queue T1 c bin_no, ∀ c1 b1, (c1 ≠ c ∨ b1 ≠ bin_no) →
      o ∉ queue st.table c1 b1)
    (hother_held : ∀ c1 b1, (c1 ≠ c ∨ b1 ≠ bin_no) → ∀ o ∈ queue st.table c1 b1,
      o ∉ held1) :
    no_duplicate ⟨T1, held1⟩ := by
  obtain ⟨-, hqn, -, hdisj⟩ := hinv
  have hsplit : ∀ c1 b1, (c1 = c ∧ b1 = bin_no) ∨ (c1 ≠ c ∨ b1 ≠ bin_no) := by
    intro c1 b1
    by_cases h1 : c1 = c
    · by_cases h2 : b1 = bin_no
      · exact Or.inl ⟨h1, h2⟩
      · exact Or.inr (Or.inr h2)
    · exact Or.inr (Or.inl h1)
  refine ⟨hheld, ?_, ?_, ?_⟩
  · intro c1 b1
    rcases hsplit c1 b1 with ⟨rfl, rfl⟩ | h
    · exact hnodup
    · show (queue T1 c1 b1).Nodup
      rw [hframe c1 b1 h]
      exact hqn c1 b1
  · intro c1 b1 o ho
    rcases hsplit c1 b1 with ⟨rfl, rfl⟩ | h
    · exact hq_held o ho
    · have ho1 : o ∈ queue T1 c1 b1 := ho
      rw [hframe c1 b1 h] at ho1
      exact hother_held c1 b1 h o ho1
  · intro c1 b1 c2 b2 hne o ho
    have ho1 : o ∈ queue T1 c1 b1 := ho
    show o ∉ queue T1 c2 b2
    rcases hsplit c1 b1 with ⟨rfl, rfl⟩ | h1
    · have h2 : c2 ≠ c1 ∨ b2 ≠ b1 := hne
      rw [hframe c2 b2 h2]
      exact hq_other o ho1 c2 b2 h2
    · rw [hframe c1 b1 h1] at ho1
      rcases hsplit c2 b2 with ⟨rfl, rfl⟩ | h2
      · intro ho2
        exact hq_other o ho2 c1 b1 h1 ho1
      · rw [hframe c2 b2 h2]
        exact hdisj c1 b1 c2 b2 hne o ho1

theorem no_duplicate_take {st : client_state} {T1 : cache_table_type}
    {c bin_no : Nat} {v : difference_type} {L : List difference_type}
    (hinv : no_duplicate st)
    (hframe : ∀ c1 b1, (c1 ≠ c ∨ b1 ≠ bin_no) → queue T1 c1 b1 = queue st.table c1 b1)
    (hL : v :: queue T1 c bin_no = L) (hLn : L.Nodup)
    (hL_held : ∀ o ∈ L, o ∉ st.held)
    (hL_other : ∀ o ∈ L, ∀ c1 b1, (c1 ≠ c ∨ b1 ≠ bin_no) → o ∉ queue st.table c1 b1) :
    v ∉ st.held ∧ no_duplicate ⟨T1, v :: st.held⟩ := by
  subst hL
  have hv : v ∉ st.held := hL_held v (List.mem_cons_self _ _)
  have hcons := List.nodup_cons.mp hLn
  refine ⟨hv, no_duplicate_replace hinv hframe (List.nodup_cons.mpr ⟨hv, hinv.1⟩) hcons.2
    ?_ ?_ ?_⟩
  · intro o ho hmem
    rcases List.mem_cons.mp hmem with h | h
    · subst h
      exact hcons.1 ho
    · exact hL_held o (List.mem_cons_of_mem _ ho) h
  · intro o ho
    exact hL_other o (List.mem_cons_of_mem _ ho)
  · intro c1 b1 h o ho hmem
    rcases List.mem_cons.mp hmem with h1 | h1
    · subst h1
      exact hL_other o (List.mem_cons_self _ _) c1 b1 h ho
    · exact hinv.2.2.1 c1 b1 o ho h1

theorem no_duplicate_put {st : client_state} {T1 : cache_table_type}
    {c bin_no : Nat} {offset : difference_type} (hinv : no_duplicate st)
    (hframe : ∀ c1 b1, (c1 ≠ c ∨ b1 ≠ bin_no) → queue T1 c1 b1 = queue st.table c1 b1)
    (hheld : offset ∈ st.held)
    (hsub : (queue T1 c bin_no).Sublist (queue st.table c bin_no ++ [offset])) :
    no_duplicate ⟨T1, st.held.erase offset⟩ := by
  obtain ⟨hhn, hqn, hqh, hdisj⟩ := hinv
  have hnotin : ∀ c1 b1, offset ∉ queue st.table c1 b1 :=
    fun c1 b1 hmem => hqh c1 b1 offset hmem hheld
  have hLn : (queue st.table c bin_no ++ [offset]).Nodup := by
    rw [List.nodup_append]
    refine ⟨hqn c bin_no, List.nodup_singleton _, ?_⟩
    intro a ha hb
    rw [List.mem_singleton] at hb
    subst hb
    exact hnotin c bin_no ha
  refine no_duplicate_replace ⟨hhn, hqn, hqh, hdisj⟩ hframe (hhn.erase offset)
    (hsub.nodup hLn) ?_ ?_ ?_
  · intro o ho hmem
    have hoL := hsub.subset ho
    rw [hhn.mem_erase_iff] at hmem
    rcases List.mem_append.mp hoL with h | h
    · exact hqh c bin_no o h hmem.2
    · exact hmem.1 (List.mem_singleton.mp h)
  · intro o ho c1 b1 h
    have hoL := hsub.subset ho
    rcases List.mem_append.mp hoL with h1 | h1
    · exact hdisj c bin_no c1 b1 h o h1
    · rw [List.mem_singleton.mp h1]
      exact hnotin c1 b1
  · intro c1 b1 _ o ho hmem
    exact hqh c1 b1 o ho (List.mem_of_mem_erase hmem)

theorem apply_op_get (M : bin_no_manager) (st : client_state) (r : router)
    (bin_no : Nat) (buf : offset_block) :
    apply_op M st (cache_op.get r bin_no buf)
      = (object_cache.get M r bin_no (fun _ _ s => (buf, s)) () st.table).bind
        (fun res => some (⟨res.table,
          if bin_no > max_bin_no M then st.held else res.ret :: st.held⟩, some res.ret)) :=
  rfl

theorem apply_op_insert (M : bin_no_manager) (st : client_state) (r : router)
    (bin_no : Nat) (offset : difference_type) :
    apply_op M st (cache_op.insert r bin_no offset)
      = (object_cache.insert M r bin_no offset (fun _ _ _ s => s) () st.table).bind
        (fun res => some (⟨res.table,
          if res.ret then st.held.erase offset else st.held⟩, none)) :=
  rfl

theorem apply_get_inv {M : bin_no_manager} {st st1 : client_state} {r : router}
    {bin_no : Nat} {buf : offset_block} {ret : Option difference_type}
    (hstep : apply_op M st (cache_op.get r bin_no buf) = some (st1, ret)) :
    ∃ g, object_cache.get M r bin_no (fun _ _ s => (buf, s)) () st.table = some g ∧
      st1 = ⟨g.table, if bin_no > max_bin_no M then st.held else g.ret :: st.held⟩ ∧
      ret = some g.ret := by
  unfold apply_op at hstep
  cases hg : object_cache.get M r bin_no (fun _ _ s => (buf, s)) () st.table with
  | none => simp [hg] at hstep
  | some g =>
    simp only [hg, Option.bind_eq_bind, Option.some_bind, Option.some.injEq,
      Prod.mk.injEq] at hstep
    exact ⟨g, rfl, hstep.1.symm, hstep.2.symm⟩

theorem apply_insert_inv {M : bin_no_manager} {st st1 : client_state} {r : router}
    {bin_no : Nat} {offset : difference_type} {ret : Option difference_type}
    (hstep : apply_op M st (cache_op.insert r bin_no offset) = some (st1, ret)) :
    ∃ i, object_cache.insert M r bin_no offset (fun _ _ _ s => s) () st.table = some i ∧
      st1 = ⟨i.table, if i.ret then st.held.erase offset else st.held⟩ ∧
      ret = none := by
  unfold apply_op at hstep
  cases hi : object_cache.insert M r bin_no offset (fun _ _ _ s => s) () st.table with
  | none => simp [hi] at hstep
  | some i =>
    simp only [hi, Option.bind_eq_bind, Option.some_bind, Option.some.injEq,
      Prod.mk.injEq] at hstep
    exact ⟨i, rfl, hstep.1.symm, hstep.2.symm⟩

theorem apply_clear_inv {M : bin_no_manager} {st st1 : client_state}
    {ret : Option difference_type}
    (hstep : apply_op M st cache_op.clear = some (st1, ret)) :
    st1 = ⟨(object_cache.clear () st.table).table, st.held⟩ ∧ ret = none := by
  unfold apply_op at hstep
  simp only [Option.some.injEq, Prod.mk.injEq] at hstep
  exact ⟨hstep.1.symm, hstep.2.symm⟩

theorem no_duplicate_get {M : bin_no_manager} {st st1 : client_state} {r : router}
    {bin_no : Nat} {buf : offset_block} {ret : Option difference_type}
    (hinv : no_duplicate st) (hop : honest_op M st (cache_op.get r bin_no buf))
    (hstep : apply_op M st (cache_op.get r bin_no buf) = some (st1, ret)) :
    no_duplicate st1 ∧
      (bin_no ≤ max_bin_no M → ∃ o, ret = some o ∧ o ∉ st.held ∧ st1.held = o :: st.held) := by
  obtain ⟨g, hg, rfl, rfl⟩ := apply_get_inv hstep
  rcases get_effect M r bin_no _ () st.table g hg with
    ⟨hbin, -, htab, -, -⟩ | ⟨hbin, c, -, -, hshards, hbins, hcase⟩
  · rw [if_pos hbin, htab]
    exact ⟨hinv, fun hle => absurd hbin (Nat.not_lt.mpr hle)⟩
  · have hnot : ¬ bin_no > max_bin_no M := Nat.not_lt.mpr hbin
    rw [if_neg hnot]
    have hframe := queue_frame hshards hbins
    have hres : g.ret ∉ st.held ∧ no_duplicate ⟨g.table, g.ret :: st.held⟩ := by
      rcases hcase with ⟨-, hcalls, -, hL⟩ | ⟨-, -, hL⟩
      · have hfresh := hop g hg (by rw [hcalls]; exact List.cons_ne_nil _ _)
        exact no_duplicate_take hinv hframe hL hfresh.1 (fun o ho => (hfresh.2 o ho).1)
          (fun o ho c1 b1 _ => (hfresh.2 o ho).2 c1 b1)
      · refine no_duplicate_take hinv hframe hL.symm (hinv.2.1 c bin_no)
          (fun o ho => hinv.2.2.1 c bin_no o ho)
          (fun o ho c1 b1 h => hinv.2.2.2 c bin_no c1 b1 h o ho)
    exact ⟨hres.2, fun _ => ⟨g.ret, rfl, hres.1, rfl⟩⟩

theorem no_duplicate_insert {M : bin_no_manager} {st st1 : client_state} {r : router}
    {bin_no : Nat} {offset : difference_type} {ret : Option difference_type}
    (hinv : no_duplicate st) (hop : honest_op M st (cache_op.insert r bin_no offset))
    (hstep : apply_op M st (cache_op.insert r bin_no offset) = some (st1, ret)) :
    no_duplicate st1 := by
  obtain ⟨i, hi, rfl, rfl⟩ := apply_insert_inv hstep
  rcases insert_effect M r bin_no offset _ () st.table i hi with
    ⟨-, ⟨-, hret, htab, -, -⟩ | ⟨-, hret, c, -, -, hshards, hbins, hcase⟩⟩
  · rw [hret, htab]
    exact hinv
  · rw [hret]
    have hframe := queue_frame hshards hbins
    refine no_duplicate_put hinv hframe hop ?_
    rcases hcase with ⟨-, -, -, hq⟩ | ⟨-, -, -, -, hq⟩
    · rw [hq]
    · rw [hq]
      exact List.drop_sublist _ _

theorem no_duplicate_of_reachable {M : bin_no_manager} {st : client_state}
    (hreach : reachable M (honest_op M) st) : no_duplicate st := by
  induction hreach with
  | init T hempty =>
    refine ⟨List.nodup_nil, ?_, ?_, ?_⟩
    · intro c b
      show (queue T c b).Nodup
      rw [hempty]
      exact List.nodup_nil
    · intro c b o ho
      have ho1 : o ∈ queue T c b := ho
      rw [hempty] at ho1
      cases ho1
    · intro c b c1 b1 _ o ho
      have ho1 : o ∈ queue T c b := ho
      rw [hempty] at ho1
      cases ho1
  | step st op st1 ret _ hop hstep ih =>
    cases op with
    | get r bin_no buf => exact (no_duplicate_get ih hop hstep).1
    | insert r bin_no offset => exact no_duplicate_insert ih hop hstep
    | clear =>
      obtain ⟨rfl, -⟩ := apply_clear_inv hstep
      refine ⟨ih.1, ?_, ?_, ?_⟩
      · intro c b
        show (queue (object_cache.clear () st.table).table c b).Nodup
        rw [queue_clear]
        exact List.nodup_nil
      · intro c b o ho
        have ho1 : o ∈ queue (object_cache.clear () st.table).table c b := ho
        rw [queue_clear] at ho1
        cases ho1
      · intro c b c1 b1 _ o ho
        have ho1 : o ∈ queue (object_cache.clear () st.table).table c b := ho
        rw [queue_clear] at ho1
        cases ho1

theorem comp_cache_no_of_ne_nil (r : router) {T : cache_table_type} (hT : T ≠ []) :
    ∃ c, comp_cache_no r T = some c := by
  have hlen : ¬ T.length = 0 := fun h => hT (List.length_eq_zero.mp h)
  unfold comp_cache_no
  rw [if_neg hlen]
  split
  · exact ⟨_, rfl⟩
  · exact ⟨_, rfl⟩

theorem get_returns {σ : Type} (M : bin_no_manager) (r : router) (bin_no : Nat)
    (allocator : allocator_type σ) (s : σ) (T : cache_table_type)
    (h : bin_no > max_bin_no M ∨ T ≠ []) :
    ∃ g, object_cache.get M r bin_no allocator s T = some g := by
  by_cases hbin : bin_no > max_bin_no M
  · refine ⟨⟨-1, T, s, []⟩, ?_⟩
    unfold object_cache.get
    rw [if_pos hbin]
  · rcases h with h | h
    · exact absurd h hbin
    · obtain ⟨c, hc⟩ := comp_cache_no_of_ne_nil r h
      obtain ⟨g, -, hg, -⟩ := get_step M r bin_no allocator s T c (Nat.le_of_not_lt hbin) hc
      exact ⟨g, hg⟩

theorem queue_construct (h c b : Nat) : queue (construct h) c b = [] := by
  unfold queue
  cases hget : (construct h)[c]? with
  | none => rfl
  | some d =>
    have hd := List.getElem?_mem hget
    rw [construct, List.mem_replicate] at hd
    rw [hd.2]
    rfl

/-- C11: in every state reachable from an empty cache by `get`, `insert` and
`clear` operations on any shards, where every invoked allocation callback
supplies 8 pairwise distinct offsets that are neither cached nor held and
`insert` is only called with a held offset, no offset is at two places, and
the next such `get` either is on a bin that is not cached and returns the
sentinel `-1`, handing out nothing, or returns an offset that no caller holds;
the `get` returns whenever the bin is not cached or the shard table is
non-empty. -/
theorem no_get_returns_a_held_offset (M : bin_no_manager) (st : client_state)
    (r : router) (bin_no : Nat) (buf : offset_block)
    (hreach : reachable M (honest_op M) st)
    (hop : honest_op M st (cache_op.get r bin_no buf)) :
    no_duplicate st ∧
    (∀ st1 ret, apply_op M st (cache_op.get r bin_no buf) = some (st1, ret) →
      (bin_no > max_bin_no M ∧ ret = some (-1) ∧ st1.held = st.held) ∨
      (bin_no ≤ max_bin_no M ∧
        ∃ o, ret = some o ∧ o ∉ st.held ∧ st1.held = o :: st.held)) ∧
    ((bin_no > max_bin_no M ∨ st.table ≠ []) →
      ∃ st1 o, apply_op M st (cache_op.get r bin_no buf) = some (st1, some o)) := by
  have hinv := no_duplicate_of_reachable hreach
  refine ⟨hinv, ?_, ?_⟩
  · intro st1 ret hstep
    by_cases hbin : bin_no > max_bin_no M
    · left
      obtain ⟨g, hg, rfl, rfl⟩ := apply_get_inv hstep
      rcases get_effect M r bin_no _ () st.table g hg with ⟨-, hret, -⟩ | ⟨hle, -⟩
      · refine ⟨hbin, by rw [hret], ?_⟩
        show (if bin_no > max_bin_no M then st.held else g.ret :: st.held) = st.held
        rw [if_pos hbin]
      · exact absurd hbin (Nat.not_lt.mpr hle)
    · right
      have hle := Nat.le_of_not_lt hbin
      exact ⟨hle, (no_duplicate_get hinv hop hstep).2 hle⟩
  · intro h
    obtain ⟨g, hg⟩ := get_returns M r bin_no (fun _ _ s => (buf, s)) () st.table h
    refine ⟨⟨g.table, if bin_no > max_bin_no M then st.held else g.ret :: st.held⟩,
      g.ret, ?_⟩
    unfold apply_op
    simp only [hg, Option.bind_eq_bind, Option.some_bind]

/-- C11 after one `get(3)` on the empty cache, which hands out `100`: the state
is reachable, the caller holds `100`, and the next `get(3)` returns `108`,
which is not held. -/
theorem no_get_returns_a_held_offset_witness :
    ∃ st1, apply_op pow2_manager ⟨construct 1, []⟩
        (cache_op.get (thread_router 5) 3 (stub_block 100)) = some (st1, some 100) ∧
      st1.held = [100] ∧
      reachable pow2_manager (honest_op pow2_manager) st1 ∧
      honest_op pow2_manager st1 (cache_op.get (thread_router 5) 3 (stub_block 200)) ∧
      ∃ st2 o, apply_op pow2_manager st1
          (cache_op.get (thread_router 5) 3 (stub_block 200)) = some (st2, some o) ∧
        o = 108 ∧ o ∉ st1.held := by
  have hstep : apply_op pow2_manager ⟨construct 1, []⟩
      (cache_op.get (thread_router 5) 3 (stub_block 100)) = some
        (⟨(construct 1).set 1 ⟨Function.update bin_directory.init.m_table 3
          [108, 116, 124, 132, 140, 148, 156]⟩, [100]⟩, some 100) := by
    have hg := get_of_empty pow2_manager (thread_router 5) 3
      (fun _ _ s => (stub_block 100, s)) () (construct 1) 1 bin_directory.init
      (by decide) (by decide) (by rfl) (by rfl)
    rw [apply_op_get, hg]
    rfl
  have hop0 : honest_op pow2_manager ⟨construct 1, []⟩
      (cache_op.get (thread_router 5) 3 (stub_block 100)) := by
    intro res _ _
    refine ⟨by decide, ?_⟩
    intro o _
    exact ⟨List.not_mem_nil o, fun c b => by rw [queue_construct]; exact List.not_mem_nil o⟩
  have hreach := reachable.step _ _ _ _ (reachable.init (construct 1) (queue_construct 1)) hop0
    hstep
  have hop1 : honest_op pow2_manager
      ⟨(construct 1).set 1 ⟨Function.update bin_directory.init.m_table 3
        [108, 116, 124, 132, 140, 148, 156]⟩, [100]⟩
      (cache_op.get (thread_router 5) 3 (stub_block 200)) := by
    intro res hres hcalls
    have hcalls0 : (object_cache.get pow2_manager (thread_router 5) 3
        (fun _ _ s => (stub_block 200, s)) ()
        ((construct 1).set 1 ⟨Function.update bin_directory.init.m_table 3
          [108, 116, 124, 132, 140, 148, 156]⟩)).map (fun g => g.alloc_calls) = some [] := by
      rfl
    rw [hres] at hcalls0
    exact absurd (Option.some.inj hcalls0) hcalls
  obtain ⟨-, hsafe, hret⟩ :=
    no_get_returns_a_held_offset pow2_manager _ (thread_router 5) 3 (stub_block 200) hreach hop1
  obtain ⟨st2, o, hstep2⟩ := hret (Or.inr (by
    intro h
    have hlen := congrArg List.length h
    simp [construct, num_cores] at hlen))
  have ho : o = 108 := by
    have hval : (apply_op pow2_manager
        ⟨(construct 1).set 1 ⟨Function.update bin_directory.init.m_table 3
          [108, 116, 124, 132, 140, 148, 156]⟩, [100]⟩
        (cache_op.get (thread_router 5) 3 (stub_block 200))).map (fun p => p.2) = some (some 108) := by
      rfl
    rw [hstep2] at hval
    exact Option.some.inj (Option.some.inj hval)
  refine ⟨_, hstep, rfl, hreach, hop1, st2, o, hstep2, ho, ?_⟩
  rcases hsafe st2 (some o) hstep2 with ⟨hbin, -⟩ | ⟨-, o1, ho1, hnot, -⟩
  · exact absurd hbin (by decide)
  · rw [Option.some.inj ho1]
    exact hnot

/-! ## The shard router -/

/-- C12, the code at the failing input: the guard of `get_core_no()` tests
`cached_core_no == 0`, not `cached_count == 0`. A thread whose core id is
detected as 1 and which then moves to core 2 invokes the detection primitive
in the first call only, and all nine calls return 1; a thread on core 0
invokes the primitive in every call. `cached_count` cycles through
`1, 2, 3, 0` and is never read. -/
theorem get_core_no_never_resamples :
    get_core_no_seq core_no_cache.init [1, 2, 2, 2, 2, 2, 2, 2, 2]
      = [(1, true), (1, false), (1, false), (1, false), (1, false), (1, false),
          (1, false), (1, false), (1, false)] ∧
    get_core_no_seq core_no_cache.init [0, 0, 0, 0]
      = [(0, true), (0, true), (0, true), (0, true)] ∧
    (get_core_no (get_core_no (get_core_no (get_core_no core_no_cache.init 1).statics
      2).statics 2).statics 2).statics = ⟨1, 0⟩ := by
  refine ⟨by decide, by decide, by rfl⟩

/-- C13: for every router value (thread identity, core id, hash function and
strategy) and every non-empty shard table, `comp_cache_no()` returns an index
below `num_caches()`, so the shard it indexes exists; under the core-aware
strategy the index is the hash of `core_id * 4 + sub_index`, with `sub_index`
below 4, modulo the table size, under the fallback strategy it is the hash of
the thread identity modulo the table size, the same for every core id and
every table of that size. -/
theorem comp_cache_no_in_range (r : router) (T : cache_table_type)
    (hT : 0 < num_caches T) :
    ∃ c, comp_cache_no r T = some c ∧ c < num_caches T ∧ (∃ d, T[c]? = some d) ∧
      (r.support_get_cpu_core_no = true →
        r.thread_id_hash % k_num_cache_per_core < 4 ∧
        c = r.hash (r.core_num * 4 % 2 ^ 32 + r.thread_id_hash % k_num_cache_per_core)
          % num_caches T) ∧
      (r.support_get_cpu_core_no = false →
        c = r.hash r.thread_id_hash % num_caches T ∧
        ∀ (core_num : Nat) (T2 : cache_table_type), num_caches T2 = num_caches T →
          comp_cache_no ⟨false, r.hash, r.thread_id_hash, core_num⟩ T2 = some c) := by
  have hT0 : 0 < T.length := hT
  have hlen : ¬ T.length = 0 := by omega
  cases hs : r.support_get_cpu_core_no with
  | true =>
    refine ⟨r.hash (r.core_num * 4 % 2 ^ 32 + r.thread_id_hash % k_num_cache_per_core)
      % T.length, ?_, Nat.mod_lt _ hT0, ?_, ?_, ?_⟩
    · unfold comp_cache_no
      rw [if_neg hlen, hs]
      rfl
    · exact ⟨_, List.getElem?_eq_getElem (Nat.mod_lt _ hT0)⟩
    · intro _
      exact ⟨Nat.mod_lt _ (by decide), rfl⟩
    · intro h
      cases h
  | false =>
    refine ⟨r.hash r.thread_id_hash % T.length, ?_, Nat.mod_lt _ hT0, ?_, ?_, ?_⟩
    · unfold comp_cache_no
      rw [if_neg hlen, hs]
      rfl
    · exact ⟨_, List.getElem?_eq_getElem (Nat.mod_lt _ hT0)⟩
    · intro h
      cases h
    · intro _
      refine ⟨rfl, ?_⟩
      intro core_num T2 hT2
      have hT2len : T2.length = T.length := hT2
      unfold comp_cache_no
      rw [hT2len, if_neg hlen]
      rfl

/-- C13 on the table of a machine with one hardware thread (4 shards): a thread
whose identity hashes to 5 is routed to shard 1 under the fallback strategy,
and with core id 2 and the identity hash as the hash function to shard
`(2 * 4 + 5 % 4) % 4 = 1` under the core-aware strategy. -/
theorem comp_cache_no_in_range_witness :
    0 < num_caches (construct 1) ∧
    (∃ c, comp_cache_no (thread_router 5) (construct 1) = some c ∧ c = 1 ∧
      c < num_caches (construct 1)) ∧
    (∃ c, comp_cache_no ⟨true, id, 5, 2⟩ (construct 1) = some c ∧ c = 1 ∧
      c < num_caches (construct 1)) := by
  have h0 : 0 < num_caches (construct 1) := by decide
  obtain ⟨c, hc, hlt, -, -, hfb⟩ := comp_cache_no_in_range (thread_router 5) (construct 1) h0
  obtain ⟨c2, hc2, hlt2, -, hca, -⟩ := comp_cache_no_in_range ⟨true, id, 5, 2⟩ (construct 1) h0
  refine ⟨h0, ⟨c, hc, ?_, hlt⟩, ⟨c2, hc2, ?_, hlt2⟩⟩
  · rw [(hfb rfl).1]
    decide
  · rw [(hca rfl).2]
    decide

/-! ## The sentinel -/

theorem non_negative_of_reachable {M : bin_no_manager} {st : client_state}
    (hreach : reachable M (non_negative_op M) st) :
    ∀ c b, ∀ o ∈ queue st.table c b, 0 ≤ o := by
  induction hreach with
  | init T hempty =>
    intro c b o ho
    have ho1 : o ∈ queue T c b := ho
    rw [hempty] at ho1
    cases ho1
  | step st op st1 ret _ hop hstep ih =>
    have hsplit : ∀ (c bin_no c1 b1 : Nat),
        (c1 = c ∧ b1 = bin_no) ∨ (c1 ≠ c ∨ b1 ≠ bin_no) := by
      intro c bin_no c1 b1
      by_cases h1 : c1 = c
      · by_cases h2 : b1 = bin_no
        · exact Or.inl ⟨h1, h2⟩
        · exact Or.inr (Or.inr h2)
      · exact Or.inr (Or.inl h1)
    cases op with
    | get r bin_no buf =>
      obtain ⟨g, hg, rfl, rfl⟩ := apply_get_inv hstep
      intro c1 b1 o ho
      have ho1 : o ∈ queue g.table c1 b1 := ho
      rcases get_effect M r bin_no _ () st.table g hg with
        ⟨-, -, htab, -, -⟩ | ⟨-, c, -, -, hshards, hbins, hcase⟩
      · rw [htab] at ho1
        exact ih c1 b1 o ho1
      · rcases hsplit c bin_no c1 b1 with ⟨rfl, rfl⟩ | hne
        · rcases hcase with ⟨-, hcalls, -, hL⟩ | ⟨-, -, hL⟩
          · have hnn := hop g hg (by rw [hcalls]; exact List.cons_ne_nil _ _)
            have hmem : o ∈ List.ofFn buf := by
              have hL1 : g.ret :: queue g.table c1 b1 = List.ofFn buf := hL
              rw [← hL1]
              exact List.mem_cons_of_mem _ ho1
            obtain ⟨i, rfl⟩ := (List.mem_ofFn buf o).mp hmem
            exact hnn i
          · exact ih c1 b1 o (by rw [hL]; exact List.mem_cons_of_mem _ ho1)
        · rw [queue_frame hshards hbins c1 b1 hne] at ho1
          exact ih c1 b1 o ho1
    | insert r bin_no offset =>
      obtain ⟨i, hi, rfl, rfl⟩ := apply_insert_inv hstep
      intro c1 b1 o ho
      have ho1 : o ∈ queue i.table c1 b1 := ho
      rcases insert_effect M r bin_no offset _ () st.table i hi with
        ⟨hoff, ⟨-, -, htab, -, -⟩ | ⟨-, -, c, -, -, hshards, hbins, hcase⟩⟩
      · rw [htab] at ho1
        exact ih c1 b1 o ho1
      · rcases hsplit c bin_no c1 b1 with ⟨rfl, rfl⟩ | hne
        · have hmem : o ∈ queue st.table c1 b1 ++ [offset] := by
            rcases hcase with ⟨-, -, -, hq⟩ | ⟨-, -, -, -, hq⟩
            · rw [← hq]; exact ho1
            · rw [hq] at ho1; exact List.mem_of_mem_drop ho1
          rcases List.mem_append.mp hmem with h | h
          · exact ih c1 b1 o h
          · rw [List.mem_singleton.mp h]; exact hoff
        · rw [queue_frame hshards hbins c1 b1 hne] at ho1
          exact ih c1 b1 o ho1
    | clear =>
      obtain ⟨rfl, -⟩ := apply_clear_inv hstep
      intro c1 b1 o ho
      have ho1 : o ∈ queue (object_cache.clear () st.table).table c1 b1 := ho
      rw [queue_clear] at ho1
      cases ho1

/-- C14: in every state reachable from an empty cache by `get`, `insert` and
`clear` operations in which every invoked allocation callback supplies
non-negative offsets and every `insert` passes a non-negative offset, all
cached offsets are non-negative; so a `get` whose callback, if invoked,
supplies non-negative offsets returns `-1` if and only if
`bin_no > max_bin_no()`, and it returns whenever the bin is not cached or the
shard table is non-empty. -/
theorem sentinel_only_for_uncached_bins {σ : Type} (M : bin_no_manager)
    (st : client_state) (r : router) (bin_no : Nat) (allocator : allocator_type σ)
    (s : σ) (hreach : reachable M (non_negative_op M) st)
    (halloc : ∀ g, object_cache.get M r bin_no allocator s st.table = some g →
      g.alloc_calls ≠ [] → ∀ i, 0 ≤ (allocator bin_no 8 s).1 i) :
    (∀ c b, ∀ o ∈ queue st.table c b, 0 ≤ o) ∧
    (∀ g, object_cache.get M r bin_no allocator s st.table = some g →
      (g.ret = -1 ↔ bin_no > max_bin_no M)) ∧
    ((bin_no > max_bin_no M ∨ st.table ≠ []) →
      ∃ g, object_cache.get M r bin_no allocator s st.table = some g) := by
  have hinv := non_negative_of_reachable hreach
  refine ⟨hinv, ?_, get_returns M r bin_no allocator s st.table⟩
  intro g hg
  rcases get_effect M r bin_no allocator s st.table g hg with
    ⟨hbin, hret, -⟩ | ⟨hbin, c, -, -, -, -, hcase⟩
  · exact ⟨fun _ => hbin, fun _ => hret⟩
  · have hnn : 0 ≤ g.ret := by
      rcases hcase with ⟨-, hcalls, -, hL⟩ | ⟨-, -, hL⟩
      · have hnn := halloc g hg (by rw [hcalls]; exact List.cons_ne_nil _ _)
        have hmem : g.ret ∈ List.ofFn (allocator bin_no 8 s).1 := by
          rw [← hL]
          exact List.mem_cons_self _ _
        obtain ⟨i, hi⟩ := (List.mem_ofFn _ _).mp hmem
        rw [← hi]
        exact hnn i
      · exact hinv c bin_no g.ret (by rw [hL]; exact List.mem_cons_self _ _)
    constructor
    · intro hret
      rw [hret] at hnn
      exact absurd hnn (by decide)
    · intro hgt
      exact absurd hgt (Nat.not_lt.mpr hbin)

theorem first_get_step :
    apply_op pow2_manager ⟨construct 1, []⟩
      (cache_op.get (thread_router 5) 3 (stub_block 100)) = some (after_first_get, some 100) := by
  have hg := get_of_empty pow2_manager (thread_router 5) 3
    (fun _ _ s => (stub_block 100, s)) () (construct 1) 1 bin_directory.init
    (by decide) (by decide) (by rfl) (by rfl)
  rw [apply_op_get, hg]
  rfl

theorem after_first_get_table_ne_nil : after_first_get.table ≠ [] := by
  intro h
  have hlen := congrArg List.length h
  simp [after_first_get, construct, num_cores] at hlen

/-- C14 on the state after the first `get(3)`: the state is reachable, a `get`
on bin 14, which is not cached, returns `-1`, and a `get` on bin 3 returns an
offset other than `-1`. -/
theorem sentinel_only_for_uncached_bins_witness :
    reachable pow2_manager (non_negative_op pow2_manager) after_first_get ∧
    (∃ g, object_cache.get pow2_manager (thread_router 5) 14 (stub_allocator 200) 0
      after_first_get.table = some g ∧ g.ret = -1) ∧
    (∃ g, object_cache.get pow2_manager (thread_router 5) 3 (stub_allocator 200) 0
      after_first_get.table = some g ∧ g.ret ≠ -1) := by
  have hop0 : non_negative_op pow2_manager ⟨construct 1, []⟩
      (cache_op.get (thread_router 5) 3 (stub_block 100)) := by
    intro res _ _ i
    show (0 : Int) ≤ 100 + 8 * (i.val : Int)
    omega
  have hreach : reachable pow2_manager (non_negative_op pow2_manager) after_first_get :=
    reachable.step _ _ _ _ (reachable.init (construct 1) (queue_construct 1)) hop0
      first_get_step
  have halloc : ∀ (b : Nat) (g : get_result Nat),
      object_cache.get pow2_manager (thread_router 5) b (stub_allocator 200) 0
        after_first_get.table = some g →
      g.alloc_calls ≠ [] → ∀ i, 0 ≤ (stub_allocator 200 b 8 0).1 i := by
    intro b g _ _ i
    show (0 : Int) ≤ 200 + 8 * (i.val : Int)
    omega
  obtain ⟨-, hiff14, hex14⟩ := sentinel_only_for_uncached_bins pow2_manager after_first_get
    (thread_router 5) 14 (stub_allocator 200) 0 hreach (halloc 14)
  obtain ⟨-, hiff3, hex3⟩ := sentinel_only_for_uncached_bins pow2_manager after_first_get
    (thread_router 5) 3 (stub_allocator 200) 0 hreach (halloc 3)
  obtain ⟨g14, hg14⟩ := hex14 (Or.inl (by decide))
  obtain ⟨g3, hg3⟩ := hex3 (Or.inr after_first_get_table_ne_nil)
  refine ⟨hreach, ⟨g14, hg14, (hiff14 g14 hg14).mpr (by decide)⟩, ⟨g3, hg3, ?_⟩⟩
  intro hret
  exact absurd ((hiff3 g3 hg3).mp hret) (by decide)

/-! ## The byte budget of a queue -/

theorem footprint_of_reachable {M : bin_no_manager}
    (hsz : ∀ b, b ≤ max_bin_no M →
      1 ≤ M.to_object_size b ∧ M.to_object_size b ≤ 65536)
    {st : client_state} (hreach : reachable M any_op st) :
    ∀ c b, (b > max_bin_no M → queue st.table c b = []) ∧
      (queue st.table c b).length * M.to_object_size b < 2 ^ 20 := by
  induction hreach with
  | init T hempty =>
    intro c b
    show (b > max_bin_no M → queue T c b = []) ∧ (queue T c b).length * _ < 2 ^ 20
    rw [hempty]
    exact ⟨fun _ => rfl, by simp⟩
  | step st op st1 ret _ _ hstep ih =>
    have hsplit : ∀ (c bin_no c1 b1 : Nat),
        (c1 = c ∧ b1 = bin_no) ∨ (c1 ≠ c ∨ b1 ≠ bin_no) := by
      intro c bin_no c1 b1
      by_cases h1 : c1 = c
      · by_cases h2 : b1 = bin_no
        · exact Or.inl ⟨h1, h2⟩
        · exact Or.inr (Or.inr h2)
      · exact Or.inr (Or.inl h1)
    cases op with
    | get r bin_no buf =>
      obtain ⟨g, hg, rfl, rfl⟩ := apply_get_inv hstep
      intro c1 b1
      show (b1 > max_bin_no M → queue g.table c1 b1 = []) ∧
        (queue g.table c1 b1).length * _ < 2 ^ 20
      rcases get_effect M r bin_no _ () st.table g hg with
        ⟨-, -, htab, -, -⟩ | ⟨hbin, c, -, -, hshards, hbins, hcase⟩
      · rw [htab]
        exact ih c1 b1
      · rcases hsplit c bin_no c1 b1 with ⟨rfl, rfl⟩ | hne
        · refine ⟨fun hgt => absurd hgt (Nat.not_lt.mpr hbin), ?_⟩
          rcases hcase with ⟨-, -, -, hL⟩ | ⟨-, -, hL⟩
          · have hlen : (queue g.table c1 b1).length = 7 := by
              have h8 := congrArg List.length hL
              simp only [List.length_cons, List.length_ofFn] at h8
              have h8n : (queue g.table c1 b1).length + 1 = 8 := h8
              omega
            rw [hlen]
            have hmul := Nat.mul_le_mul_left 7 (hsz b1 hbin).2
            omega
          · have hlen : (queue g.table c1 b1).length ≤ (queue st.table c1 b1).length := by
              rw [hL]
              simp
            exact Nat.lt_of_le_of_lt (Nat.mul_le_mul_right _ hlen) (ih c1 b1).2
        · rw [queue_frame hshards hbins c1 b1 hne]
          exact ih c1 b1
    | insert r bin_no offset =>
      obtain ⟨i, hi, rfl, rfl⟩ := apply_insert_inv hstep
      intro c1 b1
      show (b1 > max_bin_no M → queue i.table c1 b1 = []) ∧
        (queue i.table c1 b1).length * _ < 2 ^ 20
      rcases insert_effect M r bin_no offset _ () st.table i hi with
        ⟨-, ⟨-, -, htab, -, -⟩ | ⟨hbin, -, c, -, -, hshards, hbins, hcase⟩⟩
      · rw [htab]
        exact ih c1 b1
      · rcases hsplit c bin_no c1 b1 with ⟨rfl, rfl⟩ | hne
        · refine ⟨fun hgt => absurd hgt (Nat.not_lt.mpr hbin), ?_⟩
          rcases hcase with ⟨hsmall, -, -, hq⟩ | ⟨-, hblk, -, -, hq⟩
          · rw [hq]
            simpa using hsmall
          · have hlen : (queue i.table c1 b1).length ≤ (queue st.table c1 b1).length := by
              have h8 : 8 ≤ (queue st.table c1 b1).length + 1 := hblk
              rw [hq]
              simp only [List.length_drop, List.length_append, List.length_singleton]
              omega
            exact Nat.lt_of_le_of_lt (Nat.mul_le_mul_right _ hlen) (ih c1 b1).2
        · rw [queue_frame hshards hbins c1 b1 hne]
          exact ih c1 b1
    | clear =>
      obtain ⟨rfl, -⟩ := apply_clear_inv hstep
      intro c1 b1
      show (b1 > max_bin_no M → queue (object_cache.clear () st.table).table c1 b1 = []) ∧
        (queue (object_cache.clear () st.table).table c1 b1).length * _ < 2 ^ 20
      rw [queue_clear]
      exact ⟨fun _ => rfl, by simp⟩

/-- C15: when every cached bin has an object size between 1 and 65536, in
every state reachable from an empty cache by any sequence of `get`, `insert`
and `clear` operations every queue of every shard satisfies
`queue_length * object_size(bin) < 1 MiB`. -/
theorem bounded_cache_footprint (M : bin_no_manager) (st : client_state)
    (hsz : ∀ b, b ≤ max_bin_no M →
      1 ≤ M.to_object_size b ∧ M.to_object_size b ≤ 65536)
    (hreach : reachable M any_op st) :
    ∀ c b, (queue st.table c b).length * M.to_object_size b < 2 ^ 20 :=
  fun c b => (footprint_of_reachable hsz hreach c b).2

theorem pow2_manager_sizes :
    ∀ b, b ≤ max_bin_no pow2_manager →
      1 ≤ pow2_manager.to_object_size b ∧ pow2_manager.to_object_size b ≤ 65536 := by
  intro b hb
  have h13 : max_bin_no pow2_manager = 13 := by decide
  rw [h13] at hb
  interval_cases b <;> decide

/-- C15 on the state after the first `get(3)`: bin 3 of shard 1 holds 7 objects
of 64 bytes, 448 bytes. -/
theorem bounded_cache_footprint_witness :
    (∀ b, b ≤ max_bin_no pow2_manager →
      1 ≤ pow2_manager.to_object_size b ∧ pow2_manager.to_object_size b ≤ 65536) ∧
    reachable pow2_manager any_op after_first_get ∧
    (queue after_first_get.table 1 3).length * pow2_manager.to_object_size 3 = 448 ∧
    ∀ c b, (queue after_first_get.table c b).length * pow2_manager.to_object_size b
      < 2 ^ 20 := by
  have hreach : reachable pow2_manager any_op after_first_get :=
    reachable.step _ _ _ _ (reachable.init (construct 1) (queue_construct 1)) trivial
      first_get_step
  exact ⟨pow2_manager_sizes, hreach, by decide,
    bounded_cache_footprint pow2_manager after_first_get pow2_manager_sizes hreach⟩

/-! ## `front` and `pop` act on non-empty queues -/

theorem front_pop_of_ne_nil {d : bin_directory} {b : Nat} (hne : d.m_table b ≠ []) :
    ∃ v d2, d.front b = some v ∧ d.pop b = some d2 := by
  cases hq : d.m_table b with
  | nil => exact absurd hq hne
  | cons v rest =>
    refine ⟨v, ⟨Function.update d.m_table b rest⟩, ?_, ?_⟩
    · simp [bin_directory.front, hq]
    · simp [bin_directory.pop, hq]

/-- C16: when every cached bin has an object size between 1 and 65536, for a
cached bin, a non-negative offset and every state of the selected shard,
`insert` returns, and when it takes the flush branch the queue holds at least
16 offsets after the append, so the assertion `size >= k_cache_block_size`
holds, each of the 8 `front`/`pop` steps finds a non-empty queue and the flush
loop completes; `get` returns, and its `front` and `pop`, after the emptiness
check and the possible refill, act on a non-empty queue. -/
theorem no_pop_from_empty_queue {σ τ : Type} (M : bin_no_manager) (r : router)
    (bin_no : Nat) (offset : Int) (allocator : allocator_type σ)
    (deallocator : deallocator_type τ) (s : σ) (t : τ) (T : cache_table_type)
    (c : Nat) (d : bin_directory)
    (hsz : ∀ b, b ≤ max_bin_no M →
      1 ≤ M.to_object_size b ∧ M.to_object_size b ≤ 65536)
    (hbin : bin_no ≤ max_bin_no M) (hoff : 0 ≤ offset)
    (hc : comp_cache_no r T = some c) (hd : T[c]? = some d) :
    (∃ i, object_cache.insert M r bin_no offset deallocator t T = some i) ∧
    ((d.insert bin_no offset).size bin_no * M.to_object_size bin_no
        ≥ k_max_total_cache_size_per_bin →
      16 ≤ (d.insert bin_no offset).size bin_no ∧
      (d.insert bin_no offset).size bin_no ≥ k_cache_block_size ∧
      (∀ k, k < 8 → ((d.insert bin_no offset).m_table bin_no).drop k ≠ []) ∧
      ∃ res, flush k_cache_block_size (d.insert bin_no offset) bin_no [] = some res) ∧
    (∃ g, object_cache.get M r bin_no allocator s T = some g) ∧
    (∃ v d2,
      (if d.empty bin_no then refill d bin_no (allocator bin_no k_cache_block_size s).1
        else d).front bin_no = some v ∧
      (if d.empty bin_no then refill d bin_no (allocator bin_no k_cache_block_size s).1
        else d).pop bin_no = some d2) := by
  have hsize : (d.insert bin_no offset).size bin_no = (d.m_table bin_no).length + 1 := by
    simp [bin_directory.size, bin_directory.insert]
  have hflush : (d.insert bin_no offset).size bin_no * M.to_object_size bin_no
      ≥ k_max_total_cache_size_per_bin → 2 * k_cache_block_size ≤ (d.m_table bin_no).length + 1 := by
    intro hfull
    rw [hsize] at hfull
    exact block_fits_of_full (hsz bin_no hbin).2 hfull
  refine ⟨?_, ?_, ?_, ?_⟩
  · by_cases hsmall : ((d.m_table bin_no).length + 1) * M.to_object_size bin_no
        < k_max_total_cache_size_per_bin
    · exact ⟨_, insert_of_small M r bin_no offset deallocator t T c d hoff hbin hc hd hsmall⟩
    · have hfull := Nat.not_lt.mp hsmall
      have h16 : 2 * 8 ≤ (d.m_table bin_no).length + 1 :=
        block_fits_of_full (hsz bin_no hbin).2 hfull
      have h8 : k_cache_block_size ≤ (d.m_table bin_no).length + 1 := by
        show 8 ≤ _
        omega
      exact ⟨_, insert_of_full M r bin_no offset deallocator t T c d hoff hbin hc hd hfull h8⟩
  · intro hfull
    have h16 : 2 * 8 ≤ (d.m_table bin_no).length + 1 := hflush hfull
    have hlenq : ((d.insert bin_no offset).m_table bin_no).length
        = (d.m_table bin_no).length + 1 := by
      rw [insert_m_table_self]
      simp
    refine ⟨by rw [hsize]; omega, by rw [hsize]; show 8 ≤ _; omega, ?_, ?_⟩
    · intro k hk hnil
      have hlen0 := congrArg List.length hnil
      rw [List.length_drop, hlenq] at hlen0
      simp only [List.length_nil] at hlen0
      omega
    · exact ⟨_, flush_eq k_cache_block_size (d.insert bin_no offset) bin_no []
        (by rw [hlenq]; show 8 ≤ _; omega)⟩
  · obtain ⟨g, -, hg, -⟩ := get_step M r bin_no allocator s T c hbin hc
    exact ⟨g, hg⟩
  · apply front_pop_of_ne_nil
    by_cases hempty : d.empty bin_no = true
    · rw [if_pos hempty, refill_eq]
      simp only [Function.update_same]
      intro hnil
      have hlen0 := congrArg List.length hnil
      simp at hlen0
    · rw [if_neg hempty]
      intro hnil
      apply hempty
      simp [bin_directory.empty, hnil]

/-- C16 on `full_table`: the 16th offset of bin 13 takes the flush branch with
16 queued offsets; `insert` and `get` return. -/
theorem no_pop_from_empty_queue_witness :
    (∀ b, b ≤ max_bin_no pow2_manager →
      1 ≤ pow2_manager.to_object_size b ∧ pow2_manager.to_object_size b ≤ 65536) ∧
    13 ≤ max_bin_no pow2_manager ∧ (0 : Int) ≤ 983040 ∧
    comp_cache_no (thread_router 5) full_table = some 1 ∧
    (∃ d, full_table[1]? = some d ∧
      (d.insert 13 983040).size 13 * pow2_manager.to_object_size 13
        ≥ k_max_total_cache_size_per_bin ∧
      16 ≤ (d.insert 13 983040).size 13 ∧
      ∃ res, flush k_cache_block_size (d.insert 13 983040) 13 [] = some res) ∧
    (∃ i, object_cache.insert pow2_manager (thread_router 5) 13 983040 stub_deallocator []
      full_table = some i) ∧
    (∃ g, object_cache.get pow2_manager (thread_router 5) 13 (stub_allocator 100) 0
      full_table = some g) := by
  have h1 : 13 ≤ max_bin_no pow2_manager := by decide
  have h2 : comp_cache_no (thread_router 5) full_table = some 1 := by decide
  have hd : full_table[1]? = some (full_table.get ⟨1, by decide⟩) := by rfl
  have hfull : ((full_table.get ⟨1, by decide⟩).insert 13 983040).size 13
      * pow2_manager.to_object_size 13 ≥ k_max_total_cache_size_per_bin := by decide
  obtain ⟨hins, hbranch, hget, -⟩ :=
    no_pop_from_empty_queue pow2_manager (thread_router 5) 13 983040 (stub_allocator 100)
      stub_deallocator 0 [] full_table 1 _ pow2_manager_sizes h1 (by decide) h2 hd
  obtain ⟨h16, -, -, hfl⟩ := hbranch hfull
  exact ⟨pow2_manager_sizes, h1, by decide, h2, ⟨_, hd, hfull, h16, hfl⟩, hins, hget⟩

/-! ## Frame and conservation -/

/-- C17: for every shard table, bin and offset, a call of `get` or `insert`
keeps the number of shards, leaves every shard other than the one the router
selects as it is, and in the selected shard changes at most the queue of
`bin_no`: the queue of every other bin of that shard and every queue of every
other shard is unchanged. `get` returns whenever the bin is not cached or the
table is non-empty. -/
theorem get_insert_frame {σ τ : Type} (M : bin_no_manager) (r : router)
    (bin_no : Nat) (offset : Int) (allocator : allocator_type σ)
    (deallocator : deallocator_type τ) (s : σ) (t : τ) (T : cache_table_type) :
    (∀ g, object_cache.get M r bin_no allocator s T = some g →
      num_caches g.table = num_caches T ∧
      (∀ c1, comp_cache_no r T ≠ some c1 → g.table[c1]? = T[c1]?) ∧
      (∀ c1 b1, (comp_cache_no r T ≠ some c1 ∨ b1 ≠ bin_no) →
        queue g.table c1 b1 = queue T c1 b1)) ∧
    (∀ i, object_cache.insert M r bin_no offset deallocator t T = some i →
      num_caches i.table = num_caches T ∧
      (∀ c1, comp_cache_no r T ≠ some c1 → i.table[c1]? = T[c1]?) ∧
      (∀ c1 b1, (comp_cache_no r T ≠ some c1 ∨ b1 ≠ bin_no) →
        queue i.table c1 b1 = queue T c1 b1)) ∧
    ((bin_no > max_bin_no M ∨ T ≠ []) →
      ∃ g, object_cache.get M r bin_no allocator s T = some g) := by
  have hne : ∀ {c c1 : Nat}, comp_cache_no r T = some c →
      comp_cache_no r T ≠ some c1 → c1 ≠ c := by
    intro c c1 hc h heq
    apply h
    rw [hc, heq]
  refine ⟨?_, ?_, get_returns M r bin_no allocator s T⟩
  · intro g hg
    rcases get_effect M r bin_no allocator s T g hg with
      ⟨-, -, htab, -, -⟩ | ⟨-, c, hc, hnum, hshards, hbins, -⟩
    · rw [htab]
      exact ⟨rfl, fun _ _ => rfl, fun _ _ _ => rfl⟩
    · refine ⟨hnum, fun c1 h => hshards c1 (hne hc h), ?_⟩
      intro c1 b1 h
      apply queue_frame hshards hbins
      rcases h with h | h
      · exact Or.inl (hne hc h)
      · exact Or.inr h
  · intro i hi
    rcases insert_effect M r bin_no offset deallocator t T i hi with
      ⟨-, ⟨-, -, htab, -, -⟩ | ⟨-, -, c, hc, hnum, hshards, hbins, -⟩⟩
    · rw [htab]
      exact ⟨rfl, fun _ _ => rfl, fun _ _ _ => rfl⟩
    · refine ⟨hnum, fun c1 h => hshards c1 (hne hc h), ?_⟩
      intro c1 b1 h
      apply queue_frame hshards hbins
      rcases h with h | h
      · exact Or.inl (hne hc h)
      · exact Or.inr h

/-- C17 on `full_table`, where the router selects shard 1: `get(13)` and the
flushing `insert(13, 983040)` keep the two shards, shard 0 and the queue of
bin 3 in shard 1. -/
theorem get_insert_frame_witness :
    comp_cache_no (thread_router 5) full_table = some 1 ∧
    (∃ g, object_cache.get pow2_manager (thread_router 5) 13 (stub_allocator 100) 0
        full_table = some g ∧
      num_caches g.table = 2 ∧ g.table[0]? = full_table[0]? ∧
      queue g.table 1 3 = queue full_table 1 3) ∧
    (∃ i, object_cache.insert pow2_manager (thread_router 5) 13 983040 stub_deallocator []
        full_table = some i ∧
      num_caches i.table = 2 ∧ i.table[0]? = full_table[0]? ∧
      queue i.table 1 3 = queue full_table 1 3) := by
  have hc : comp_cache_no (thread_router 5) full_table = some 1 := by decide
  have hd : full_table[1]? = some (full_table.get ⟨1, by decide⟩) := by rfl
  obtain ⟨hget, hins, hex⟩ :=
    get_insert_frame pow2_manager (thread_router 5) 13 983040 (stub_allocator 100)
      stub_deallocator 0 [] full_table
  obtain ⟨g, hg⟩ := hex (Or.inr (List.cons_ne_nil _ _))
  have hi := insert_of_full pow2_manager (thread_router 5) 13 983040 stub_deallocator []
    full_table 1 _ (by decide) (by decide) hc hd (by decide) (by decide)
  have h0 : comp_cache_no (thread_router 5) full_table ≠ some 0 := by decide
  obtain ⟨hg1, hg2, hg3⟩ := hget g hg
  obtain ⟨hi1, hi2, hi3⟩ := hins _ hi
  exact ⟨hc, ⟨g, hg, hg1, hg2 0 h0, hg3 1 3 (Or.inr (by decide))⟩,
    ⟨_, hi, hi1, hi2 0 h0, hi3 1 3 (Or.inr (by decide))⟩⟩

/-- C18: for a cached bin and the shard the router selects, `get` returns and
the multiset of the old queue plus the offsets the allocation callback wrote
in this call equals the multiset of the new queue plus the returned offset;
for `insert` the multiset of the old queue plus the inserted offset equals the
multiset of the new queue plus the offsets passed to the deallocation callback
in this call; `insert` returns for a non-negative offset when the object size
of the bin is at most 65536. -/
theorem offsets_are_conserved {σ τ : Type} (M : bin_no_manager) (r : router)
    (bin_no : Nat) (offset : Int) (allocator : allocator_type σ)
    (deallocator : deallocator_type τ) (s : σ) (t : τ) (T : cache_table_type)
    (c : Nat) (hbin : bin_no ≤ max_bin_no M) (hc : comp_cache_no r T = some c) :
    (∃ g, object_cache.get M r bin_no allocator s T = some g ∧
      ((queue T c bin_no
          ++ g.alloc_calls.flatMap (fun _ => List.ofFn (allocator bin_no 8 s).1) :
          List difference_type) : Multiset difference_type)
        = ((g.ret :: queue g.table c bin_no : List difference_type) :
          Multiset difference_type)) ∧
    (∀ i, object_cache.insert M r bin_no offset deallocator t T = some i →
      ((queue T c bin_no ++ [offset] : List difference_type) : Multiset difference_type)
        = ((queue i.table c bin_no ++ i.dealloc_calls.flatMap (fun call => call.2.2) :
          List difference_type) : Multiset difference_type)) ∧
    (0 ≤ offset → M.to_object_size bin_no ≤ 65536 →
      ∃ i, object_cache.insert M r bin_no offset deallocator t T = some i) := by
  refine ⟨?_, ?_, ?_⟩
  · obtain ⟨g, -, hg, -⟩ := get_step M r bin_no allocator s T c hbin hc
    refine ⟨g, hg, ?_⟩
    rcases get_effect M r bin_no allocator s T g hg with
      ⟨hgt, -⟩ | ⟨-, c1, hc1, -, -, -, hcase⟩
    · exact absurd hgt (Nat.not_lt.mpr hbin)
    · rw [hc] at hc1
      cases hc1
      rcases hcase with ⟨hq, hcalls, -, hL⟩ | ⟨hcalls, -, hL⟩
      · rw [hq, hcalls, hL]
        simp
      · rw [hcalls, hL]
        simp
  · intro i hi
    rcases insert_effect M r bin_no offset deallocator t T i hi with
      ⟨-, ⟨hgt, -⟩ | ⟨-, -, c1, hc1, -, -, -, hcase⟩⟩
    · exact absurd hgt (Nat.not_lt.mpr hbin)
    · rw [hc] at hc1
      cases hc1
      rcases hcase with ⟨-, hcalls, -, hq⟩ | ⟨-, -, hcalls, -, hq⟩
      · rw [hcalls, hq]
        simp
      · rw [hcalls, hq]
        apply Multiset.coe_eq_coe.mpr
        simp only [List.flatMap_cons, List.flatMap_nil, List.append_nil]
        exact (List.perm_append_comm.trans
          (List.Perm.of_eq (List.take_append_drop 8 _))).symm
  · intro hoff hos
    obtain ⟨d, hd, hqd⟩ := selected_shard hc
    by_cases hsmall : ((d.m_table bin_no).length + 1) * M.to_object_size bin_no
        < k_max_total_cache_size_per_bin
    · exact ⟨_, insert_of_small M r bin_no offset deallocator t T c d hoff hbin hc hd hsmall⟩
    · have hfull := Nat.not_lt.mp hsmall
      have h16 : 2 * 8 ≤ (d.m_table bin_no).length + 1 := block_fits_of_full hos hfull
      have h8 : k_cache_block_size ≤ (d.m_table bin_no).length + 1 := by
        show 8 ≤ _
        omega
      exact ⟨_, insert_of_full M r bin_no offset deallocator t T c d hoff hbin hc hd hfull h8⟩

/-- C18 on `full_table`: `get(13)` pops one of the 15 queued offsets, and the
`insert(13, 983040)` that reaches the threshold flushes 8 of the 16; in both
calls the offsets before and after form the same multiset. -/
theorem offsets_are_conserved_witness :
    13 ≤ max_bin_no pow2_manager ∧
    comp_cache_no (thread_router 5) full_table = some 1 ∧
    (∃ g, object_cache.get pow2_manager (thread_router 5) 13 (stub_allocator 100) 0
        full_table = some g ∧
      ((queue full_table 1 13
          ++ g.alloc_calls.flatMap (fun _ => List.ofFn (stub_allocator 100 13 8 0).1) :
          List difference_type) : Multiset difference_type)
        = ((g.ret :: queue g.table 1 13 : List difference_type) :
          Multiset difference_type)) ∧
    (∃ i, object_cache.insert pow2_manager (thread_router 5) 13 983040 stub_deallocator []
        full_table = some i ∧
      ((queue full_table 1 13 ++ [983040] : List difference_type) :
          Multiset difference_type)
        = ((queue i.table 1 13 ++ i.dealloc_calls.flatMap (fun call => call.2.2) :
          List difference_type) : Multiset difference_type)) := by
  have h1 : 13 ≤ max_bin_no pow2_manager := by decide
  have hc : comp_cache_no (thread_router 5) full_table = some 1 := by decide
  obtain ⟨hget, hins, hex⟩ :=
    offsets_are_conserved pow2_manager (thread_router 5) 13 983040 (stub_allocator 100)
      stub_deallocator 0 [] full_table 1 h1 hc
  obtain ⟨i, hi⟩ := hex (by decide) (by decide)
  exact ⟨h1, hc, hget, ⟨i, hi, hins i hi⟩⟩

end metall
